import Mathlib

/-!
Verification of the alphadia candidate-selection engine
(`alphadia/extraction/hybridselection.py`, `alphadia/extraction/candidateselection.py`)
against its natural-language specification.

Python/numpy code is shallowly embedded: numpy float arrays become lists or
functions over `ℚ` (exact arithmetic; `ℝ` where a claim is genuinely about
real analysis), loops become structural recursions or folds, unchecked numba
array writes become total function updates, and checked numpy indexing
becomes `Option`.  Components of the repository that are not part of the
provided sources (`alphadia.extraction.utils`, `alphadia.extraction.data`,
`alphadia.extraction.numba.*`) are modelled from the specification; each such
definition carries a doc comment starting with `Modelled from the spec:`.
-/

namespace AlphaDia

/-- Read a cell of a matrix represented as a list of rows (numpy 2-d bool
array); out-of-range reads default to `false`. -/
def cell (mask : List (List Bool)) (j i : ℕ) : Bool :=
  (mask.getD j []).getD i false

/-! ### `calculate_dia_cycle_mask` (hybridselection.py lines 1222-1256)

```
dia_mz_cycle = cycle.reshape(-1, 2)
mz_mask = np.zeros((n_score_groups, len(dia_mz_cycle)), dtype=np.bool_)
for i, (mz_start, mz_stop) in enumerate(dia_mz_cycle):
    for j, (quad_mz_start, quad_mz_stop) in enumerate(quad_slices):
        if (quad_mz_start <= mz_stop) and (quad_mz_stop >= mz_start):
            mz_mask[j, i] = True
return mz_mask
```

The cycle descriptor is taken in its flattened `(-1, 2)` form, which is what
`reshape` produces. -/

/-- Inner loop over `quad_slices` for one cycle entry `e` at column `i`:
sets `mz_mask[j, i] = True` for every quad slice intersecting `e`. -/
def diaMaskInner (e : ℚ × ℚ) (i : ℕ) : List (ℚ × ℚ) → ℕ → List (List Bool) → List (List Bool)
  | [], _, mask => mask
  | q :: rest, j, mask =>
      diaMaskInner e i rest (j + 1)
        (if q.1 ≤ e.2 ∧ q.2 ≥ e.1 then mask.set j ((mask.getD j []).set i true) else mask)

/-- Outer loop over the flattened dia cycle entries. -/
def diaMaskOuter (quad : List (ℚ × ℚ)) : List (ℚ × ℚ) → ℕ → List (List Bool) → List (List Bool)
  | [], _, mask => mask
  | e :: rest, i, mask => diaMaskOuter quad rest (i + 1) (diaMaskInner e i quad 0 mask)

/-- `calculate_dia_cycle_mask(cycle, quad_slices)`: boolean matrix of shape
`(n_score_groups, len(dia_mz_cycle))`. -/
def calculate_dia_cycle_mask (cycle quad_slices : List (ℚ × ℚ)) : List (List Bool) :=
  diaMaskOuter quad_slices cycle 0
    (List.replicate quad_slices.length (List.replicate cycle.length false))

/-- `getD` after `set`, with the no-op out-of-range case included. -/
lemma getD_set' {α : Type} (l : List α) (k j : ℕ) (a : α) (d : α) :
    (l.set k a).getD j d = if k = j ∧ k < l.length then a else l.getD j d := by
  rcases eq_or_ne k j with rfl | hne
  · by_cases hk : k < l.length
    · simp [List.getD_eq_getElem?_getD, List.getElem?_set_self hk, hk]
    · rw [List.set_eq_of_length_le (by omega)]
      simp [hk]
  · simp [List.getD_eq_getElem?_getD, List.getElem?_set_ne hne, hne]

lemma cell_set_row (mask : List (List Bool)) (j i : ℕ) (hj : j < mask.length)
    (hi : i < (mask.getD j []).length) (j' i' : ℕ) :
    cell (mask.set j ((mask.getD j []).set i true)) j' i'
      = if j' = j ∧ i' = i then true else cell mask j' i' := by
  unfold cell
  rw [getD_set']
  rcases eq_or_ne j' j with rfl | hne
  · rw [if_pos ⟨rfl, hj⟩]
    rw [getD_set']
    rcases eq_or_ne i' i with rfl | hne2
    · rw [if_pos ⟨rfl, hi⟩, if_pos ⟨rfl, rfl⟩]
    · rw [if_neg (by tauto), if_neg (by tauto)]
  · rw [if_neg (by tauto), if_neg (by tauto)]

lemma diaMaskInner_length (e : ℚ × ℚ) (i : ℕ) :
    ∀ (quads : List (ℚ × ℚ)) (j : ℕ) (mask : List (List Bool)),
    (diaMaskInner e i quads j mask).length = mask.length := by
  intro quads
  induction quads with
  | nil => intro j mask; rfl
  | cons q rest ih =>
      intro j mask
      simp only [diaMaskInner]
      rw [ih]
      split <;> simp

lemma getD_replicate {α : Type} (n : ℕ) (a d : α) (i : ℕ) :
    (List.replicate n a).getD i d = if i < n then a else d := by
  rw [List.getD_eq_getElem?_getD, List.getElem?_replicate]
  split <;> rfl

lemma cell_replicate (m n : ℕ) (j i : ℕ) :
    cell (List.replicate m (List.replicate n false)) j i = false := by
  unfold cell
  rw [getD_replicate]
  split
  · rw [getD_replicate]; split <;> rfl
  · simp

lemma getD_set_row_length (mask : List (List Bool)) (j : ℕ) (r : List Bool) (j' : ℕ) :
    ((mask.set j r).getD j' []).length
      = if j = j' ∧ j < mask.length then r.length else (mask.getD j' []).length := by
  rw [getD_set']
  split <;> rfl

/-- Collapse a nested `if _ then true else if _ then true else x`. -/
lemma ite_or_true {c d : Prop} [Decidable c] [Decidable d] (x : Bool) :
    (if c then true else (if d then true else x)) = if c ∨ d then true else x := by
  by_cases hc : c <;> by_cases hd : d <;> simp [hc, hd]

/-- Behaviour of the inner loop on an arbitrary cell: position `(j', i)` for
`j ≤ j' < j + |quads|` is set to `True` when the corresponding quad slice
intersects `e`; every other cell is untouched. -/
lemma diaMaskInner_cell (e : ℚ × ℚ) (i : ℕ) :
    ∀ (quads : List (ℚ × ℚ)) (j : ℕ) (mask : List (List Bool)) (j' i' : ℕ),
    j + quads.length ≤ mask.length →
    (∀ r, r < mask.length → i < (mask.getD r []).length) →
    cell (diaMaskInner e i quads j mask) j' i'
      = if j ≤ j' ∧ j' < j + quads.length ∧ i' = i ∧
            ((quads.getD (j' - j) (0, 0)).1 ≤ e.2 ∧ (quads.getD (j' - j) (0, 0)).2 ≥ e.1)
        then true else cell mask j' i' := by
  intro quads
  induction quads with
  | nil =>
      intro j mask j' i' _ _
      simp only [diaMaskInner, List.length_nil]
      rw [if_neg (by omega)]
  | cons q rest ih =>
      intro j mask j' i' hlen hrow
      simp only [diaMaskInner]
      have hjlt : j < mask.length := by
        simp only [List.length_cons] at hlen; omega
      have hilt : i < (mask.getD j []).length := hrow j hjlt
      by_cases hq : q.1 ≤ e.2 ∧ q.2 ≥ e.1
      · rw [if_pos hq]
        rw [ih (j + 1) _ j' i' ?_ ?_]
        rotate_left
        · rw [List.length_set]
          simp only [List.length_cons] at hlen; omega
        · intro r hr
          rw [List.length_set] at hr
          rw [getD_set_row_length]
          split
          · simpa using hilt
          · exact hrow r hr
        rw [cell_set_row mask j i hjlt hilt j' i', ite_or_true]
        apply if_congr ?_ rfl rfl
        constructor
        · rintro (⟨h1, h2, h3, h4⟩ | ⟨rfl, rfl⟩)
          · have hdrop : j' - j = (j' - (j + 1)) + 1 := by omega
            refine ⟨by omega, by simp only [List.length_cons]; omega, h3, ?_⟩
            rw [hdrop, List.getD_cons_succ]
            exact h4
          · exact ⟨le_refl _, by simp only [List.length_cons]; omega, rfl,
              by simpa [Nat.sub_self, List.getD_cons_zero] using hq⟩
        · rintro ⟨h1, h2, h3, h4⟩
          rcases eq_or_ne j' j with rfl | hne
          · right; exact ⟨rfl, h3⟩
          · left
            have hdrop : j' - j = (j' - (j + 1)) + 1 := by omega
            rw [hdrop, List.getD_cons_succ] at h4
            simp only [List.length_cons] at h2
            exact ⟨by omega, by omega, h3, h4⟩
      · rw [if_neg hq]
        rw [ih (j + 1) _ j' i' (by simp only [List.length_cons] at hlen; omega) hrow]
        apply if_congr ?_ rfl rfl
        constructor
        · rintro ⟨h1, h2, h3, h4⟩
          have hdrop : j' - j = (j' - (j + 1)) + 1 := by omega
          refine ⟨by omega, by simp only [List.length_cons]; omega, h3, ?_⟩
          rw [hdrop, List.getD_cons_succ]
          exact h4
        · rintro ⟨h1, h2, h3, h4⟩
          rcases eq_or_ne j' j with rfl | hne
          · rw [Nat.sub_self, List.getD_cons_zero] at h4
            exact absurd h4 hq
          · have hdrop : j' - j = (j' - (j + 1)) + 1 := by omega
            rw [hdrop, List.getD_cons_succ] at h4
            simp only [List.length_cons] at h2
            exact ⟨by omega, by omega, h3, h4⟩

/-- The inner loop leaves every cell `(j', i')` with `i' ≠ i` unchanged and
preserves lengths; packaged: behaviour of the outer loop. -/
lemma diaMaskOuter_cell (quad : List (ℚ × ℚ)) :
    ∀ (cycles : List (ℚ × ℚ)) (i0 : ℕ) (mask : List (List Bool)) (j' i' : ℕ),
    quad.length ≤ mask.length →
    (∀ r, r < mask.length → i0 + cycles.length ≤ (mask.getD r []).length) →
    cell (diaMaskOuter quad cycles i0 mask) j' i'
      = if i0 ≤ i' ∧ i' < i0 + cycles.length ∧ j' < quad.length ∧
            ((quad.getD j' (0, 0)).1 ≤ (cycles.getD (i' - i0) (0, 0)).2 ∧
             (quad.getD j' (0, 0)).2 ≥ (cycles.getD (i' - i0) (0, 0)).1)
        then true else cell mask j' i' := by
  intro cycles
  induction cycles with
  | nil =>
      intro i0 mask j' i' _ _
      simp only [diaMaskOuter, List.length_nil]
      rw [if_neg (by omega)]
  | cons e rest ih =>
      intro i0 mask j' i' hlen hrow
      simp only [diaMaskOuter]
      have hinlen : (diaMaskInner e i0 quad 0 mask).length = mask.length :=
        diaMaskInner_length e i0 quad 0 mask
      have hinrow : ∀ r, r < mask.length →
          ((diaMaskInner e i0 quad 0 mask).getD r []).length = (mask.getD r []).length := by
        -- row lengths are preserved: each step replaces a row by a `set` of itself
        clear ih
        intro r hr
        suffices h : ∀ (quads : List (ℚ × ℚ)) (j : ℕ) (m : List (List Bool)) (r : ℕ),
            ((diaMaskInner e i0 quads j m).getD r []).length = (m.getD r []).length by
          exact h quad 0 mask r
        intro quads
        induction quads with
        | nil => intro j m r; rfl
        | cons q rest2 ih2 =>
            intro j m r
            simp only [diaMaskInner]
            rw [ih2]
            split
            · rw [getD_set_row_length]
              split
              · rename_i hcond
                rw [hcond.1]
                simp
              · rfl
            · rfl
      rw [ih (i0 + 1) _ j' i' (by rw [hinlen]; exact hlen) ?_]
      rotate_left
      · intro r hr
        rw [hinlen] at hr
        rw [hinrow r hr]
        have := hrow r hr
        simp only [List.length_cons] at this
        omega
      rw [diaMaskInner_cell e i0 quad 0 mask j' i' (by simpa using hlen)
        (fun r hr => by have := hrow r hr; simp only [List.length_cons] at this; omega)]
      rw [ite_or_true]
      apply if_congr ?_ rfl rfl
      constructor
      · rintro (⟨h1, h2, h3, h4⟩ | ⟨-, h2, h3, h4⟩)
        · have hdrop : i' - i0 = (i' - (i0 + 1)) + 1 := by omega
          refine ⟨by omega, by simp only [List.length_cons]; omega, h3, ?_⟩
          rw [hdrop, List.getD_cons_succ]
          exact h4
        · subst h3
          refine ⟨le_refl _, by simp only [List.length_cons]; omega, by simpa using h2, ?_⟩
          simpa [Nat.sub_self, Nat.sub_zero, List.getD_cons_zero] using h4
      · rintro ⟨h1, h2, h3, h4⟩
        rcases eq_or_ne i' i0 with rfl | hne
        · right
          rw [Nat.sub_self, List.getD_cons_zero] at h4
          exact ⟨Nat.zero_le _, by simpa using h3, rfl, by simpa using h4⟩
        · left
          have hdrop : i' - i0 = (i' - (i0 + 1)) + 1 := by omega
          rw [hdrop, List.getD_cons_succ] at h4
          simp only [List.length_cons] at h2
          exact ⟨by omega, by omega, h3, h4⟩

/-- C3. `calculate_dia_cycle_mask` selects a cycle entry `(q_low, q_high)` for
a selection window `(w_low, w_high)` if and only if `q_low ≤ w_high` and
`q_high ≥ w_low`: the mask contains exactly the intersecting entries. -/
theorem dia_cycle_mask_iff (cycle quad_slices : List (ℚ × ℚ)) (i j : ℕ)
    (hi : i < cycle.length) (hj : j < quad_slices.length) :
    cell (calculate_dia_cycle_mask cycle quad_slices) j i = true
      ↔ ((cycle.getD i (0, 0)).1 ≤ (quad_slices.getD j (0, 0)).2 ∧
         (cycle.getD i (0, 0)).2 ≥ (quad_slices.getD j (0, 0)).1) := by
  unfold calculate_dia_cycle_mask
  rw [diaMaskOuter_cell quad_slices cycle 0 _ j i (by simp) ?_]
  rotate_left
  · intro r hr
    rw [getD_replicate]
    simp only [List.length_replicate] at hr
    simp [hr]
  rw [cell_replicate]
  constructor
  · intro h
    split at h
    · rename_i hcond
      obtain ⟨-, -, -, h4a, h4b⟩ := hcond
      exact ⟨h4b, h4a⟩
    · exact absurd h (by simp)
  · intro h
    rw [if_pos ?_]
    refine ⟨Nat.zero_le _, by omega, hj, ?_, ?_⟩
    · exact h.2
    · exact h.1

/-- Witness for C3 at a concrete cycle and window set. -/
theorem dia_cycle_mask_iff_witness :
    cell (calculate_dia_cycle_mask [((-1 : ℚ), -1), (400, 425)] [((410 : ℚ), 420)]) 0 1 = true
      ↔ (((400 : ℚ) ≤ 420) ∧ ((425 : ℚ) ≥ 410)) := by
  have h := dia_cycle_mask_iff [((-1 : ℚ), -1), (400, 425)] [((410 : ℚ), 420)] 1 0
    (by decide) (by decide)
  simpa using h

/-! ### Sorting helpers (model of `np.argsort` / fancy indexing)

`np.argsort` returns the index permutation sorting the array ascending; we
model it as a stable insertion sort on (index, key) pairs with a total
lexicographic tie-break, and `arr[order]` as `permuteBy`. -/

def insertBy {α : Type} (le : α → α → Bool) (x : α) : List α → List α
  | [] => [x]
  | y :: ys => if le x y then x :: y :: ys else y :: insertBy le x ys

def sortBy {α : Type} (le : α → α → Bool) (l : List α) : List α :=
  l.foldr (insertBy le) []

/-- `np.argsort` on a rational array. -/
def argsort (l : List ℚ) : List ℕ :=
  (sortBy (fun a b => a.2 < b.2 ∨ (a.2 = b.2 ∧ a.1 ≤ b.1))
    ((List.range l.length).map (fun i => (i, l.getD i 0)))).map (·.1)

/-- numpy fancy indexing `arr[order]`. -/
def permuteBy {α : Type} (order : List ℕ) (l : List α) (d : α) : List α :=
  order.map (fun i => l.getD i d)

/-! ### `calculate_score_group_limits` (hybridselection.py lines 1260-1273)

```
quadrupole_mz = np.zeros((1, 2))
mask = precursor_intensity > 0
quadrupole_mz[0] = precursor_mz[mask].min()
quadrupole_mz[1] = precursor_mz[mask].max()
return quadrupole_mz
```

Embedded with checked numpy indexing semantics: row assignment
`quadrupole_mz[i] = scalar` broadcasts the scalar into row `i` and is only
legal for `i < n_rows`; `min`/`max` of an empty selection is an error.
Illegal operations yield `none`. -/

/-- `np.min` of a 1-d array (error on empty). -/
def npMin : List ℚ → Option ℚ
  | [] => none
  | x :: xs => some (xs.foldl min x)

/-- `np.max` of a 1-d array (error on empty). -/
def npMax : List ℚ → Option ℚ
  | [] => none
  | x :: xs => some (xs.foldl max x)

/-- Checked broadcasting row assignment `m[i] = v`. -/
def setRowScalar (m : List (List ℚ)) (i : ℕ) (v : ℚ) : Option (List (List ℚ)) :=
  if i < m.length then some (m.set i ((m.getD i []).map (fun _ => v))) else none

def calculate_score_group_limits (precursor_mz precursor_intensity : List ℚ) :
    Option (List (List ℚ)) :=
  let quadrupole_mz : List (List ℚ) := [[0, 0]]
  let selected := ((precursor_mz.zip precursor_intensity).filter (fun p => p.2 > 0)).map (·.1)
  match npMin selected, npMax selected with
  | some mn, some mx =>
      (setRowScalar quadrupole_mz 0 mn).bind (fun m => setRowScalar m 1 mx)
  | _, _ => none

/-- C2 (code bug). `calculate_score_group_limits` never returns a value under
checked numpy semantics: after broadcasting the minimum into row 0, the store
of the maximum uses row index 1 on a `(1, 2)` array, which is out of bounds;
the only in-bounds write leaves row 0 as `[min, min]`, not `[min, max]`. -/
theorem score_group_limits_out_of_bounds :
    (∀ mz intensity : List ℚ, calculate_score_group_limits mz intensity = none) ∧
    calculate_score_group_limits [100, 200] [1, 1] = none ∧
    setRowScalar [[0, 0]] 0 100 = some [[100, 100]] := by
  refine ⟨?_, by decide, by decide⟩
  intro mz intensity
  unfold calculate_score_group_limits
  cases hsel : ((mz.zip intensity).filter (fun p => p.2 > 0)).map (·.1) with
  | nil => rfl
  | cons x xs => simp [npMin, npMax, setRowScalar]

/-! ### `HybridElutionGroup.sort_by_mz` (hybridselection.py lines 172-181)

```
mz_order = np.argsort(self.precursor_mz)
self.precursor_mz = self.precursor_mz[mz_order]
self.precursor_decoy = self.precursor_decoy[mz_order]
self.precursor_idx = self.precursor_idx[mz_order]
self.precursor_frag_start_stop_idx = self.precursor_frag_start_stop_idx[mz_order]
```

Note that `precursor_channel` and `precursor_isotope_intensity` are **not**
reassigned. -/

/-- The per-precursor state of a `HybridElutionGroup`. -/
structure HybridEG where
  precursor_mz : List ℚ
  precursor_decoy : List ℕ
  precursor_idx : List ℕ
  precursor_channel : List ℕ
  precursor_frag_start_stop_idx : List (ℕ × ℕ)
  precursor_isotope_intensity : List (List ℚ)
  deriving Repr, DecidableEq

def sortByMz (g : HybridEG) : HybridEG :=
  let mz_order := argsort g.precursor_mz
  { g with
    precursor_mz := permuteBy mz_order g.precursor_mz 0
    precursor_decoy := permuteBy mz_order g.precursor_decoy 0
    precursor_idx := permuteBy mz_order g.precursor_idx 0
    precursor_frag_start_stop_idx := permuteBy mz_order g.precursor_frag_start_stop_idx (0, 0) }

/-- One per-precursor row: corresponding entries of all six per-precursor
arrays. -/
structure EGRow where
  mz : ℚ
  decoy : ℕ
  idx : ℕ
  channel : ℕ
  frag : ℕ × ℕ
  iso : List ℚ
  deriving Repr, DecidableEq

/-- The per-precursor rows of the group (entry `k` of each array). -/
def egRows (g : HybridEG) : List EGRow :=
  (List.range g.precursor_mz.length).map (fun k =>
    { mz := g.precursor_mz.getD k 0
      decoy := g.precursor_decoy.getD k 0
      idx := g.precursor_idx.getD k 0
      channel := g.precursor_channel.getD k 0
      frag := g.precursor_frag_start_stop_idx.getD k (0, 0)
      iso := g.precursor_isotope_intensity.getD k [] })

/-- A concrete two-precursor score group with distinct m/z, channels, isotope
rows. -/
def egExample : HybridEG :=
  { precursor_mz := [2, 1]
    precursor_decoy := [0, 1]
    precursor_idx := [10, 11]
    precursor_channel := [5, 7]
    precursor_frag_start_stop_idx := [(0, 2), (2, 4)]
    precursor_isotope_intensity := [[1], [2]] }

/-- C4 (code bug). `sort_by_mz` permutes m/z, decoy, precursor index and the
fragment ranges by the ascending-m/z order, but leaves the channel array and
the isotope-intensity matrix in place, so the per-precursor rows of the
sorted group are *not* a permutation of the rows of the original group:
corresponding entries no longer describe the same precursor. -/
theorem sort_by_mz_not_single_permutation :
    (sortByMz egExample).precursor_mz = [1, 2] ∧
    (sortByMz egExample).precursor_idx = [11, 10] ∧
    (sortByMz egExample).precursor_decoy = [1, 0] ∧
    (sortByMz egExample).precursor_frag_start_stop_idx = [(2, 4), (0, 2)] ∧
    (sortByMz egExample).precursor_channel = [5, 7] ∧
    (sortByMz egExample).precursor_isotope_intensity = [[1], [2]] ∧
    ¬ (egRows (sortByMz egExample)).Perm (egRows egExample) := by
  decide

/-! ### Frame limits and `expand_if_odd`

`expand_if_odd` is candidateselection.py lines 850-871:

```
if (limits[1] - limits[0])%2 == 1:
    limits[1] += 1
return limits
```

`make_slice_1d` is candidateselection.py lines 804-823. -/

def expand_if_odd (limits : ℕ × ℕ) : ℕ × ℕ :=
  if (limits.2 - limits.1) % 2 = 1 then (limits.1, limits.2 + 1) else limits

def make_slice_1d (start_stop : ℕ × ℕ) : List (ℕ × ℕ × ℕ) :=
  [(start_stop.1, start_stop.2, 1)]

/-- Modelled from the spec: `TimsTOFJIT.return_frame_indices` (module
`alphadia.extraction.data` is not in src).  §4.1: given an rt range it
returns a `(start_frame, stop_frame)` pair with `stop − start` forced even
(expand by 1 if odd).  The rt→frame search itself is opaque; the function is
modelled on the raw frame pair it finds. -/
def return_frame_indices (raw : ℕ × ℕ) : ℕ × ℕ :=
  if (raw.2 - raw.1) % 2 = 1 then (raw.1, raw.2 + 1) else raw

/-- `ElutionGroup.determine_frame_limits` (candidateselection.py lines
424-454): `make_slice_1d(expand_if_odd(jit_data.return_frame_indices(...)))`. -/
def determineFrameLimitsMS1 (raw : ℕ × ℕ) : List (ℕ × ℕ × ℕ) :=
  make_slice_1d (expand_if_odd (return_frame_indices raw))

/-- `HybridElutionGroup.determine_frame_limits` (hybridselection.py lines
196-224): `make_slice_1d(jit_data.return_frame_indices(...))` (no extra
`expand_if_odd`). -/
def determineFrameLimitsHybrid (raw : ℕ × ℕ) : List (ℕ × ℕ × ℕ) :=
  make_slice_1d (return_frame_indices raw)

/-- C5. Converting an rt range to frame limits yields `(start, stop)` with
`stop − start` even; when the raw conversion finds an odd-length range the
stop is expanded by 1, and the start is never changed.  Holds on both the
MS1-centric path (which applies `expand_if_odd` on top) and the hybrid path. -/
theorem frame_limits_even (a b : ℕ) (h : a ≤ b) :
    determineFrameLimitsMS1 (a, b) = determineFrameLimitsHybrid (a, b) ∧
    ∃ t, determineFrameLimitsHybrid (a, b) = [(a, t, 1)] ∧ (t - a) % 2 = 0 ∧
      (if (b - a) % 2 = 1 then t = b + 1 else t = b) := by
  unfold determineFrameLimitsMS1 determineFrameLimitsHybrid return_frame_indices
    expand_if_odd make_slice_1d
  by_cases hodd : (b - a) % 2 = 1
  · rw [if_pos hodd]
    dsimp only
    rw [if_neg (by omega : ¬ (b + 1 - a) % 2 = 1)]
    exact ⟨rfl, b + 1, rfl, by omega, by rw [if_pos hodd]⟩
  · rw [if_neg hodd]
    dsimp only
    rw [if_neg hodd]
    exact ⟨rfl, b, rfl, by omega, by rw [if_neg hodd]⟩

/-- Witness for C5 at the odd-length range `(0, 11)`. -/
theorem frame_limits_even_witness :
    (0 : ℕ) ≤ 11 ∧
    (determineFrameLimitsMS1 (0, 11) = determineFrameLimitsHybrid (0, 11) ∧
     ∃ t, determineFrameLimitsHybrid (0, 11) = [(0, t, 1)] ∧ (t - 0) % 2 = 0 ∧
       (if (11 - 0) % 2 = 1 then t = 11 + 1 else t = 11)) :=
  ⟨by decide, frame_limits_even 0 11 (by decide)⟩

/-! ### `gaussian_kernel_2d` (candidateselection.py lines 764-802) and the
default kernel of `MS1CentricCandidateSelection.__init__` (lines 78-83)

```
x, y = np.meshgrid(np.arange(-size//2,size//2),np.arange(-size//2,size//2))
xy = np.column_stack((x.flatten(), y.flatten())).astype('float32')
mu = np.array([[0., 0.]])
sigma_mat = np.array([[sigma_x,0.],[0.,sigma_y]])
weights = utils.multivariate_normal(xy, mu, sigma_mat)
return weights.reshape(size,size)
```

`meshgrid` puts `x[r,c] = a[c]` and `y[r,c] = a[r]`, so entry `(r, c)` of the
kernel samples the density at `(x, y) = (a[c], a[r])`. -/

/-- Modelled from the spec: `utils.multivariate_normal`
(`alphadia/extraction/utils.py` is not in src).  §4.2: samples of a 2-D
Gaussian with the given mean and covariance matrix `diag(sx, sy)`; the
density of `N(μ, Σ)` in dimension 2 is
`(2π)⁻¹ det(Σ)^(−1/2) exp(−(x−μ)ᵀ Σ⁻¹ (x−μ) / 2)`. -/
noncomputable def multivariate_normal (x y μx μy sx sy : ℝ) : ℝ :=
  (1 / (2 * Real.pi * Real.sqrt (sx * sy))) *
    Real.exp (-(((x - μx) ^ 2 / sx + (y - μy) ^ 2 / sy) / 2))

/-- Entry `k` of `np.arange(-size//2, size//2)` (python floor division). -/
def gridCoord (size k : ℕ) : ℤ := Int.fdiv (-(size : ℤ)) 2 + k

/-- `gaussian_kernel_2d(size, sigma_x, sigma_y)` as a function of the matrix
position `(r, c)`. -/
noncomputable def gaussian_kernel_2d (size : ℕ) (sx sy : ℝ) (r c : ℕ) : ℝ :=
  multivariate_normal (gridCoord size c) (gridCoord size r) 0 0 sx sy

/-- The kernel built by `MS1CentricCandidateSelection.__init__` with the
defaults: `k = 20`, `kernel_sigma_rt = 5`, `kernel_sigma_mobility = 12`. -/
noncomputable def ms1DefaultKernel (r c : ℕ) : ℝ := gaussian_kernel_2d 20 5 12 r c

/-- Sum of all 20 × 20 kernel entries. -/
noncomputable def ms1KernelSum : ℝ :=
  ∑ r ∈ Finset.range 20, ∑ c ∈ Finset.range 20, ms1DefaultKernel r c

lemma ms1DefaultKernel_eq (r c : ℕ) :
    ms1DefaultKernel r c
      = (1 / (2 * Real.pi * Real.sqrt 60)) *
          (Real.exp (-(((c : ℝ) - 10) ^ 2 / 10)) * Real.exp (-(((r : ℝ) - 10) ^ 2 / 24))) := by
  unfold ms1DefaultKernel gaussian_kernel_2d multivariate_normal gridCoord
  have hf : Int.fdiv (-((20 : ℕ) : ℤ)) 2 = -10 := by decide
  have h60 : Real.sqrt ((5 : ℝ) * 12) = Real.sqrt 60 := by norm_num
  rw [hf, ← Real.exp_add, h60]
  exact congrArg (fun z => 1 / (2 * Real.pi * Real.sqrt 60) * Real.exp z) (by push_cast; ring)

/-- `exp(-(1/240))`, the base used to bound every kernel entry. -/
noncomputable def gq : ℝ := Real.exp (-(1 / 240))

lemma gq_pos : 0 < gq := Real.exp_pos _

lemma gq_lb : (239 / 240 : ℝ) ≤ gq := by
  have h := Real.add_one_le_exp (-(1 / 240 : ℝ))
  unfold gq
  linarith

lemma gq_ub : gq ≤ 240 / 241 := by
  have h : (241 / 240 : ℝ) ≤ Real.exp (1 / 240) := by
    have := Real.add_one_le_exp (1 / 240 : ℝ)
    linarith
  have hpos : (0 : ℝ) < 241 / 240 := by norm_num
  have hinv : (Real.exp (1 / 240))⁻¹ ≤ (241 / 240 : ℝ)⁻¹ :=
    inv_le_inv_of_le hpos h
  unfold gq
  rw [Real.exp_neg]
  calc (Real.exp (1 / 240))⁻¹ ≤ (241 / 240 : ℝ)⁻¹ := hinv
    _ = 240 / 241 := by norm_num

lemma gq_pow_ge (m : ℕ) : (239 / 240 : ℝ) ^ m ≤ gq ^ m :=
  pow_le_pow_left (by norm_num) gq_lb m

lemma gq_pow_le (m : ℕ) : gq ^ m ≤ (240 / 241 : ℝ) ^ m :=
  pow_le_pow_left gq_pos.le gq_ub m

lemma gq_pow_ge' (m : ℕ) (lo : ℝ) (h : lo ≤ (239 / 240 : ℝ) ^ m) : lo ≤ gq ^ m :=
  h.trans (gq_pow_ge m)

lemma gq_pow_le' (m : ℕ) (hi : ℝ) (h : (240 / 241 : ℝ) ^ m ≤ hi) : gq ^ m ≤ hi :=
  (gq_pow_le m).trans h

/-- Rewrite an exponential into a power of `gq`. -/
lemma exp_as_gq_pow (m : ℕ) (x : ℝ) (h : x = (m : ℝ) * (-(1 / 240))) :
    Real.exp x = gq ^ m := by
  rw [h, Real.exp_nat_mul]
  rfl

lemma exp_ge_of (m : ℕ) (x lo : ℝ) (h : x = (m : ℝ) * (-(1 / 240)))
    (hlo : lo ≤ (239 / 240 : ℝ) ^ m) : lo ≤ Real.exp x := by
  rw [exp_as_gq_pow m x h]
  exact hlo.trans (gq_pow_ge m)

lemma exp_le_of (m : ℕ) (x hi : ℝ) (h : x = (m : ℝ) * (-(1 / 240)))
    (hhi : (240 / 241 : ℝ) ^ m ≤ hi) : Real.exp x ≤ hi := by
  rw [exp_as_gq_pow m x h]
  exact (gq_pow_le m).trans hhi

/-- The two 1-d factor sums of the kernel. -/
noncomputable def colSum : ℝ :=
  ∑ c ∈ Finset.range 20, Real.exp (-(((c : ℝ) - 10) ^ 2 / 10))

noncomputable def rowSum : ℝ :=
  ∑ r ∈ Finset.range 20, Real.exp (-(((r : ℝ) - 10) ^ 2 / 24))

lemma ms1KernelSum_factor :
    ms1KernelSum = (1 / (2 * Real.pi * Real.sqrt 60)) * (colSum * rowSum) := by
  unfold ms1KernelSum colSum rowSum
  rw [Finset.sum_mul_sum, Finset.mul_sum, Finset.sum_comm]
  refine Finset.sum_congr rfl (fun c _ => ?_)
  rw [Finset.mul_sum]
  refine Finset.sum_congr rfl (fun r _ => ?_)
  rw [ms1DefaultKernel_eq]

lemma colSum_bounds : (559 / 100 : ℝ) < colSum ∧ colSum < 562 / 100 := by
  have e0 : Real.exp (-(((0 : ℕ) - 10 : ℝ) ^ 2 / 10)) = gq ^ 2400 :=
    exp_as_gq_pow 2400 _ (by norm_num)
  have e1 : Real.exp (-(((1 : ℕ) - 10 : ℝ) ^ 2 / 10)) = gq ^ 1944 :=
    exp_as_gq_pow 1944 _ (by norm_num)
  have e2 : Real.exp (-(((2 : ℕ) - 10 : ℝ) ^ 2 / 10)) = gq ^ 1536 :=
    exp_as_gq_pow 1536 _ (by norm_num)
  have e3 : Real.exp (-(((3 : ℕ) - 10 : ℝ) ^ 2 / 10)) = gq ^ 1176 :=
    exp_as_gq_pow 1176 _ (by norm_num)
  have e4 : Real.exp (-(((4 : ℕ) - 10 : ℝ) ^ 2 / 10)) = gq ^ 864 :=
    exp_as_gq_pow 864 _ (by norm_num)
  have e5 : Real.exp (-(((5 : ℕ) - 10 : ℝ) ^ 2 / 10)) = gq ^ 600 :=
    exp_as_gq_pow 600 _ (by norm_num)
  have e6 : Real.exp (-(((6 : ℕ) - 10 : ℝ) ^ 2 / 10)) = gq ^ 384 :=
    exp_as_gq_pow 384 _ (by norm_num)
  have e7 : Real.exp (-(((7 : ℕ) - 10 : ℝ) ^ 2 / 10)) = gq ^ 216 :=
    exp_as_gq_pow 216 _ (by norm_num)
  have e8 : Real.exp (-(((8 : ℕ) - 10 : ℝ) ^ 2 / 10)) = gq ^ 96 :=
    exp_as_gq_pow 96 _ (by norm_num)
  have e9 : Real.exp (-(((9 : ℕ) - 10 : ℝ) ^ 2 / 10)) = gq ^ 24 :=
    exp_as_gq_pow 24 _ (by norm_num)
  have e10 : Real.exp (-(((10 : ℕ) - 10 : ℝ) ^ 2 / 10)) = gq ^ 0 :=
    exp_as_gq_pow 0 _ (by norm_num)
  have e11 : Real.exp (-(((11 : ℕ) - 10 : ℝ) ^ 2 / 10)) = gq ^ 24 :=
    exp_as_gq_pow 24 _ (by norm_num)
  have e12 : Real.exp (-(((12 : ℕ) - 10 : ℝ) ^ 2 / 10)) = gq ^ 96 :=
    exp_as_gq_pow 96 _ (by norm_num)
  have e13 : Real.exp (-(((13 : ℕ) - 10 : ℝ) ^ 2 / 10)) = gq ^ 216 :=
    exp_as_gq_pow 216 _ (by norm_num)
  have e14 : Real.exp (-(((14 : ℕ) - 10 : ℝ) ^ 2 / 10)) = gq ^ 384 :=
    exp_as_gq_pow 384 _ (by norm_num)
  have e15 : Real.exp (-(((15 : ℕ) - 10 : ℝ) ^ 2 / 10)) = gq ^ 600 :=
    exp_as_gq_pow 600 _ (by norm_num)
  have e16 : Real.exp (-(((16 : ℕ) - 10 : ℝ) ^ 2 / 10)) = gq ^ 864 :=
    exp_as_gq_pow 864 _ (by norm_num)
  have e17 : Real.exp (-(((17 : ℕ) - 10 : ℝ) ^ 2 / 10)) = gq ^ 1176 :=
    exp_as_gq_pow 1176 _ (by norm_num)
  have e18 : Real.exp (-(((18 : ℕ) - 10 : ℝ) ^ 2 / 10)) = gq ^ 1536 :=
    exp_as_gq_pow 1536 _ (by norm_num)
  have e19 : Real.exp (-(((19 : ℕ) - 10 : ℝ) ^ 2 / 10)) = gq ^ 1944 :=
    exp_as_gq_pow 1944 _ (by norm_num)
  have hsum : colSum = gq ^ 2400 + 2 * (gq ^ 1944 + gq ^ 1536 + gq ^ 1176 + gq ^ 864
      + gq ^ 600 + gq ^ 384 + gq ^ 216 + gq ^ 96 + gq ^ 24) + 1 := by
    unfold colSum
    simp only [Finset.sum_range_succ, Finset.sum_range_zero]
    rw [e0, e1, e2, e3, e4, e5, e6, e7, e8, e9, e10, e11, e12, e13, e14, e15, e16, e17, e18, e19]
    ring
  have l2400 : (4 / 100000 : ℝ) ≤ gq ^ 2400 := gq_pow_ge' 2400 _ (by norm_num)
  have l1944 : (29 / 100000 : ℝ) ≤ gq ^ 1944 := gq_pow_ge' 1944 _ (by norm_num)
  have l1536 : (163 / 100000 : ℝ) ≤ gq ^ 1536 := gq_pow_ge' 1536 _ (by norm_num)
  have l1176 : (737 / 100000 : ℝ) ≤ gq ^ 1176 := gq_pow_ge' 1176 _ (by norm_num)
  have l864 : (271 / 10000 : ℝ) ≤ gq ^ 864 := gq_pow_ge' 864 _ (by norm_num)
  have l600 : (816 / 10000 : ℝ) ≤ gq ^ 600 := gq_pow_ge' 600 _ (by norm_num)
  have l384 : (2012 / 10000 : ℝ) ≤ gq ^ 384 := gq_pow_ge' 384 _ (by norm_num)
  have l216 : (4058 / 10000 : ℝ) ≤ gq ^ 216 := gq_pow_ge' 216 _ (by norm_num)
  have l96 : (6697 / 10000 : ℝ) ≤ gq ^ 96 := gq_pow_ge' 96 _ (by norm_num)
  have l24 : (9046 / 10000 : ℝ) ≤ gq ^ 24 := gq_pow_ge' 24 _ (by norm_num)
  have u2400 : gq ^ 2400 ≤ (5 / 100000 : ℝ) := gq_pow_le' 2400 _ (by norm_num)
  have u1944 : gq ^ 1944 ≤ (31 / 100000 : ℝ) := gq_pow_le' 1944 _ (by norm_num)
  have u1536 : gq ^ 1536 ≤ (169 / 100000 : ℝ) := gq_pow_le' 1536 _ (by norm_num)
  have u1176 : gq ^ 1176 ≤ (753 / 100000 : ℝ) := gq_pow_le' 1176 _ (by norm_num)
  have u864 : gq ^ 864 ≤ (276 / 10000 : ℝ) := gq_pow_le' 864 _ (by norm_num)
  have u600 : gq ^ 600 ≤ (826 / 10000 : ℝ) := gq_pow_le' 600 _ (by norm_num)
  have u384 : gq ^ 384 ≤ (2026 / 10000 : ℝ) := gq_pow_le' 384 _ (by norm_num)
  have u216 : gq ^ 216 ≤ (4074 / 10000 : ℝ) := gq_pow_le' 216 _ (by norm_num)
  have u96 : gq ^ 96 ≤ (6709 / 10000 : ℝ) := gq_pow_le' 96 _ (by norm_num)
  have u24 : gq ^ 24 ≤ (9051 / 10000 : ℝ) := gq_pow_le' 24 _ (by norm_num)
  rw [hsum]
  constructor <;> linarith

lemma rowSum_bounds : (856 / 100 : ℝ) < rowSum ∧ rowSum < 867 / 100 := by
  have e0 : Real.exp (-(((0 : ℕ) - 10 : ℝ) ^ 2 / 24)) = gq ^ 1000 :=
    exp_as_gq_pow 1000 _ (by norm_num)
  have e1 : Real.exp (-(((1 : ℕ) - 10 : ℝ) ^ 2 / 24)) = gq ^ 810 :=
    exp_as_gq_pow 810 _ (by norm_num)
  have e2 : Real.exp (-(((2 : ℕ) - 10 : ℝ) ^ 2 / 24)) = gq ^ 640 :=
    exp_as_gq_pow 640 _ (by norm_num)
  have e3 : Real.exp (-(((3 : ℕ) - 10 : ℝ) ^ 2 / 24)) = gq ^ 490 :=
    exp_as_gq_pow 490 _ (by norm_num)
  have e4 : Real.exp (-(((4 : ℕ) - 10 : ℝ) ^ 2 / 24)) = gq ^ 360 :=
    exp_as_gq_pow 360 _ (by norm_num)
  have e5 : Real.exp (-(((5 : ℕ) - 10 : ℝ) ^ 2 / 24)) = gq ^ 250 :=
    exp_as_gq_pow 250 _ (by norm_num)
  have e6 : Real.exp (-(((6 : ℕ) - 10 : ℝ) ^ 2 / 24)) = gq ^ 160 :=
    exp_as_gq_pow 160 _ (by norm_num)
  have e7 : Real.exp (-(((7 : ℕ) - 10 : ℝ) ^ 2 / 24)) = gq ^ 90 :=
    exp_as_gq_pow 90 _ (by norm_num)
  have e8 : Real.exp (-(((8 : ℕ) - 10 : ℝ) ^ 2 / 24)) = gq ^ 40 :=
    exp_as_gq_pow 40 _ (by norm_num)
  have e9 : Real.exp (-(((9 : ℕ) - 10 : ℝ) ^ 2 / 24)) = gq ^ 10 :=
    exp_as_gq_pow 10 _ (by norm_num)
  have e10 : Real.exp (-(((10 : ℕ) - 10 : ℝ) ^ 2 / 24)) = gq ^ 0 :=
    exp_as_gq_pow 0 _ (by norm_num)
  have e11 : Real.exp (-(((11 : ℕ) - 10 : ℝ) ^ 2 / 24)) = gq ^ 10 :=
    exp_as_gq_pow 10 _ (by norm_num)
  have e12 : Real.exp (-(((12 : ℕ) - 10 : ℝ) ^ 2 / 24)) = gq ^ 40 :=
    exp_as_gq_pow 40 _ (by norm_num)
  have e13 : Real.exp (-(((13 : ℕ) - 10 : ℝ) ^ 2 / 24)) = gq ^ 90 :=
    exp_as_gq_pow 90 _ (by norm_num)
  have e14 : Real.exp (-(((14 : ℕ) - 10 : ℝ) ^ 2 / 24)) = gq ^ 160 :=
    exp_as_gq_pow 160 _ (by norm_num)
  have e15 : Real.exp (-(((15 : ℕ) - 10 : ℝ) ^ 2 / 24)) = gq ^ 250 :=
    exp_as_gq_pow 250 _ (by norm_num)
  have e16 : Real.exp (-(((16 : ℕ) - 10 : ℝ) ^ 2 / 24)) = gq ^ 360 :=
    exp_as_gq_pow 360 _ (by norm_num)
  have e17 : Real.exp (-(((17 : ℕ) - 10 : ℝ) ^ 2 / 24)) = gq ^ 490 :=
    exp_as_gq_pow 490 _ (by norm_num)
  have e18 : Real.exp (-(((18 : ℕ) - 10 : ℝ) ^ 2 / 24)) = gq ^ 640 :=
    exp_as_gq_pow 640 _ (by norm_num)
  have e19 : Real.exp (-(((19 : ℕ) - 10 : ℝ) ^ 2 / 24)) = gq ^ 810 :=
    exp_as_gq_pow 810 _ (by norm_num)
  have hsum : rowSum = gq ^ 1000 + 2 * (gq ^ 810 + gq ^ 640 + gq ^ 490 + gq ^ 360
      + gq ^ 250 + gq ^ 160 + gq ^ 90 + gq ^ 40 + gq ^ 10) + 1 := by
    unfold rowSum
    simp only [Finset.sum_range_succ, Finset.sum_range_zero]
    rw [e0, e1, e2, e3, e4, e5, e6, e7, e8, e9, e10, e11, e12, e13, e14, e15, e16, e17, e18, e19]
    ring
  have l1000 : (153 / 10000 : ℝ) ≤ gq ^ 1000 := gq_pow_ge' 1000 _ (by norm_num)
  have l810 : (339 / 10000 : ℝ) ≤ gq ^ 810 := gq_pow_ge' 810 _ (by norm_num)
  have l640 : (690 / 10000 : ℝ) ≤ gq ^ 640 := gq_pow_ge' 640 _ (by norm_num)
  have l490 : (1292 / 10000 : ℝ) ≤ gq ^ 490 := gq_pow_ge' 490 _ (by norm_num)
  have l360 : (2224 / 10000 : ℝ) ≤ gq ^ 360 := gq_pow_ge' 360 _ (by norm_num)
  have l250 : (3520 / 10000 : ℝ) ≤ gq ^ 250 := gq_pow_ge' 250 _ (by norm_num)
  have l160 : (5127 / 10000 : ℝ) ≤ gq ^ 160 := gq_pow_ge' 160 _ (by norm_num)
  have l90 : (6867 / 10000 : ℝ) ≤ gq ^ 90 := gq_pow_ge' 90 _ (by norm_num)
  have l40 : (8461 / 10000 : ℝ) ≤ gq ^ 40 := gq_pow_ge' 40 _ (by norm_num)
  have l10 : (9591 / 10000 : ℝ) ≤ gq ^ 10 := gq_pow_ge' 10 _ (by norm_num)
  have u1000 : gq ^ 1000 ≤ (157 / 10000 : ℝ) := gq_pow_le' 1000 _ (by norm_num)
  have u810 : gq ^ 810 ≤ (345 / 10000 : ℝ) := gq_pow_le' 810 _ (by norm_num)
  have u640 : gq ^ 640 ≤ (699 / 10000 : ℝ) := gq_pow_le' 640 _ (by norm_num)
  have u490 : gq ^ 490 ≤ (1304 / 10000 : ℝ) := gq_pow_le' 490 _ (by norm_num)
  have u360 : gq ^ 360 ≤ (2239 / 10000 : ℝ) := gq_pow_le' 360 _ (by norm_num)
  have u250 : gq ^ 250 ≤ (3537 / 10000 : ℝ) := gq_pow_le' 250 _ (by norm_num)
  have u160 : gq ^ 160 ≤ (5142 / 10000 : ℝ) := gq_pow_le' 160 _ (by norm_num)
  have u90 : gq ^ 90 ≤ (6879 / 10000 : ℝ) := gq_pow_le' 90 _ (by norm_num)
  have u40 : gq ^ 40 ≤ (8468 / 10000 : ℝ) := gq_pow_le' 40 _ (by norm_num)
  have u10 : gq ^ 10 ≤ (9593 / 10000 : ℝ) := gq_pow_le' 10 _ (by norm_num)
  rw [hsum]
  constructor <;> linarith

lemma sqrt60_bounds : (77459 / 10000 : ℝ) < Real.sqrt 60 ∧ Real.sqrt 60 < 77461 / 10000 := by
  constructor
  · rw [show (77459 / 10000 : ℝ) = Real.sqrt ((77459 / 10000) ^ 2) by
      rw [Real.sqrt_sq (by norm_num)]]
    exact Real.sqrt_lt_sqrt (by positivity) (by norm_num)
  · rw [show (77461 / 10000 : ℝ) = Real.sqrt ((77461 / 10000) ^ 2) by
      rw [Real.sqrt_sq (by norm_num)]]
    exact Real.sqrt_lt_sqrt (by positivity) (by norm_num)

/-- C9. The default smoothing kernel is the 20 × 20 matrix of samples of a
zero-mean 2-D Gaussian with diagonal covariance `diag(5, 12)` (σ_rt = 5 on
the column/rt axis, σ_mobility = 12 on the row/scan axis), and its 400
entries sum to approximately 1 (strictly between 0.9 and 1.1; the true value
is ≈ 0.996). -/
theorem default_kernel_gaussian_normalised :
    (∀ r c : ℕ, ms1DefaultKernel r c
        = (1 / (2 * Real.pi * Real.sqrt 60)) *
            Real.exp (-((((c : ℝ) - 10) ^ 2 / 5 + ((r : ℝ) - 10) ^ 2 / 12) / 2))) ∧
    (9 / 10 : ℝ) < ms1KernelSum ∧ ms1KernelSum < 11 / 10 := by
  have hπ₁ := Real.pi_gt_d6
  have hπ₂ := Real.pi_lt_d6
  obtain ⟨hs₁, hs₂⟩ := sqrt60_bounds
  obtain ⟨hA₁, hA₂⟩ := colSum_bounds
  obtain ⟨hB₁, hB₂⟩ := rowSum_bounds
  have hcs : (0 : ℝ) < colSum := lt_trans (by norm_num) hA₁
  have hrs : (0 : ℝ) < rowSum := lt_trans (by norm_num) hB₁
  have hsp : (0 : ℝ) < Real.sqrt 60 := lt_trans (by norm_num) hs₁
  have hπs_ub : Real.pi * Real.sqrt 60 < 3.141593 * (77461 / 10000 : ℝ) := by
    have h1 : Real.pi * Real.sqrt 60 ≤ Real.pi * (77461 / 10000) :=
      mul_le_mul_of_nonneg_left hs₂.le Real.pi_pos.le
    have h2 : Real.pi * (77461 / 10000 : ℝ) < 3.141593 * (77461 / 10000) :=
      mul_lt_mul_of_pos_right hπ₂ (by norm_num)
    linarith
  have hπs_lb : (3.141592 : ℝ) * (77459 / 10000) < Real.pi * Real.sqrt 60 := by
    have h1 : (3.141592 : ℝ) * (77459 / 10000) < Real.pi * (77459 / 10000) :=
      mul_lt_mul_of_pos_right hπ₁ (by norm_num)
    have h2 : Real.pi * (77459 / 10000 : ℝ) ≤ Real.pi * Real.sqrt 60 :=
      mul_le_mul_of_nonneg_left hs₁.le Real.pi_pos.le
    linarith
  have hD : (0 : ℝ) < 2 * Real.pi * Real.sqrt 60 := by
    have := Real.pi_pos
    nlinarith
  have hABl : (559 / 100 : ℝ) * (856 / 100) ≤ colSum * rowSum :=
    mul_le_mul hA₁.le hB₁.le (by norm_num) hcs.le
  have hABu : colSum * rowSum ≤ (562 / 100 : ℝ) * (867 / 100) :=
    mul_le_mul hA₂.le hB₂.le hrs.le (by norm_num)
  refine ⟨?_, ?_, ?_⟩
  · intro r c
    rw [ms1DefaultKernel_eq, ← Real.exp_add]
    exact congrArg (fun z => 1 / (2 * Real.pi * Real.sqrt 60) * Real.exp z) (by ring)
  · rw [ms1KernelSum_factor, one_div_mul_eq_div, lt_div_iff hD]
    nlinarith [hπs_ub, hABl]
  · rw [ms1KernelSum_factor, one_div_mul_eq_div, div_lt_iff hD]
    nlinarith [hπs_lb, hABu]

/-! ### `fourier_filter` (candidateselection.py lines 873-931)

```
k0 = kernel.shape[0]; k1 = kernel.shape[1]
scan_mod = dense_stack.shape[3] % 2 ; frame_mod = dense_stack.shape[4] % 2
scan_size = dense_stack.shape[3] - scan_mod ; frame_size = dense_stack.shape[4] - frame_mod
smooth_output = np.zeros((P, O, scan_size, frame_size), 'float32')
fourier_filter = np.fft.rfft2(kernel, smooth_output.shape[2:])
for i in range(P):
    for j in range(O):
        layer = dense_stack[0,i,j,:scan_size,:frame_size]
        smooth_output[i,j] = np.fft.irfft2(np.fft.rfft2(layer) * fourier_filter)
smooth_output = np.roll(smooth_output, -k0//2, axis=2)
smooth_output = np.roll(smooth_output, -k1//2, axis=3)
```

Embedding notes.  Arrays are functions of their indices; sizes are explicit.
`np.fft.rfft2(kernel, (scan_size, frame_size))` zero-pads (or crops) the
kernel to the window shape and transforms it.  On real inputs, `rfft2`
followed by a pointwise product and `irfft2` computes exactly the full
complex 2-d DFT round trip (the real FFT merely stores the non-redundant
half of the Hermitian-symmetric spectrum), and the result is real; we embed
the transforms as full complex DFTs over exact reals and take the real part
where `irfft2` returns floats.  `np.roll(x, s)[i] = x[(i - s) % n]` with
`s = -k//2` (python floor division). -/

/-- The DFT character `exp(2πi t / N)`. -/
noncomputable def dftChar (N : ℕ) (t : ℤ) : ℂ :=
  Complex.exp (2 * Real.pi * Complex.I * t / N)

/-- Forward 2-d DFT of an `S × C` array (numpy sign convention). -/
noncomputable def fft2 (S C : ℕ) (a : ℕ → ℕ → ℂ) (u v : ℕ) : ℂ :=
  ∑ i ∈ Finset.range S, ∑ j ∈ Finset.range C,
    a i j * dftChar S (-(u * i)) * dftChar C (-(v * j))

/-- Inverse 2-d DFT (numpy normalisation `1/(S·C)`). -/
noncomputable def ifft2 (S C : ℕ) (A : ℕ → ℕ → ℂ) (m n : ℕ) : ℂ :=
  ((S : ℂ) * C)⁻¹ * ∑ u ∈ Finset.range S, ∑ v ∈ Finset.range C,
    A u v * dftChar S (u * m) * dftChar C (v * n)

/-- Circular 2-d convolution of two `S × C` real arrays (the operation the
spec describes for the smoothing step). -/
noncomputable def circConv2 (S C : ℕ) (a b : ℕ → ℕ → ℝ) (m n : ℕ) : ℝ :=
  ∑ i ∈ Finset.range S, ∑ j ∈ Finset.range C,
    a i j * b ((((m : ℤ) - i) % S).toNat) ((((n : ℤ) - j) % C).toNat)

/-- Complex counterpart of `circConv2`, used inside the proof. -/
noncomputable def circConv2C (S C : ℕ) (a b : ℕ → ℕ → ℂ) (m n : ℕ) : ℂ :=
  ∑ i ∈ Finset.range S, ∑ j ∈ Finset.range C,
    a i j * b ((((m : ℤ) - i) % S).toNat) ((((n : ℤ) - j) % C).toNat)

/-- The kernel zero-padded (and cropped) to the window shape, as
`np.fft.rfft2(kernel, shape)` does before transforming. -/
noncomputable def kernelPad (kernel : ℕ → ℕ → ℝ) (k0 k1 : ℕ) (i j : ℕ) : ℂ :=
  if i < k0 ∧ j < k1 then (kernel i j : ℂ) else 0

/-- Index map of `np.roll(x, shift)`: `roll(x, s)[i] = x[(i - s) % n]`. -/
def rollIdx (shift : ℤ) (n : ℕ) (i : ℕ) : ℕ := (((i : ℤ) - shift) % n).toNat

/-- `fourier_filter(dense_stack, kernel)` at output position `(p, o, i, j)`. -/
noncomputable def fourier_filter (dense_stack : ℕ → ℕ → ℕ → ℕ → ℕ → ℝ) (S' C' : ℕ)
    (kernel : ℕ → ℕ → ℝ) (k0 k1 : ℕ) (p o i j : ℕ) : ℝ :=
  (ifft2 (S' - S' % 2) (C' - C' % 2)
      (fun u v =>
        fft2 (S' - S' % 2) (C' - C' % 2) (fun a b => ((dense_stack 0 p o a b : ℝ) : ℂ)) u v *
        fft2 (S' - S' % 2) (C' - C' % 2) (kernelPad kernel k0 k1) u v)
      (rollIdx (Int.fdiv (-(k0 : ℤ)) 2) (S' - S' % 2) i)
      (rollIdx (Int.fdiv (-(k1 : ℤ)) 2) (C' - C' % 2) j)).re

lemma dftChar_add (N : ℕ) (s t : ℤ) : dftChar N (s + t) = dftChar N s * dftChar N t := by
  unfold dftChar
  rw [← Complex.exp_add]
  congr 1
  push_cast
  ring

lemma dftChar_mul_N (N : ℕ) (hN : 0 < N) (z : ℤ) : dftChar N ((N : ℤ) * z) = 1 := by
  unfold dftChar
  have hNne : (N : ℂ) ≠ 0 := Nat.cast_ne_zero.mpr hN.ne'
  rw [show (2 * (Real.pi : ℂ) * Complex.I * (((N : ℤ) * z : ℤ) : ℂ) / N : ℂ)
      = (z : ℂ) * (2 * Real.pi * Complex.I) by push_cast; field_simp; ring]
  exact Complex.exp_int_mul_two_pi_mul_I z

lemma dftChar_period (N : ℕ) (hN : 0 < N) (t z : ℤ) :
    dftChar N (t + N * z) = dftChar N t := by
  rw [dftChar_add, dftChar_mul_N N hN, mul_one]

lemma dftChar_pow (N : ℕ) (t : ℤ) (u : ℕ) : dftChar N ((u : ℤ) * t) = dftChar N t ^ u := by
  unfold dftChar
  rw [← Complex.exp_nat_mul]
  congr 1
  push_cast
  ring

/-- Orthogonality of the DFT characters. -/
lemma sum_dftChar (N : ℕ) (hN : 0 < N) (t : ℤ) :
    ∑ u ∈ Finset.range N, dftChar N ((u : ℤ) * t)
      = if (N : ℤ) ∣ t then (N : ℂ) else 0 := by
  have hNne : (N : ℂ) ≠ 0 := Nat.cast_ne_zero.mpr hN.ne'
  rw [Finset.sum_congr rfl (fun u _ => dftChar_pow N t u)]
  by_cases hdvd : (N : ℤ) ∣ t
  · obtain ⟨c, rfl⟩ := hdvd
    rw [if_pos ⟨c, rfl⟩, dftChar_mul_N N hN c]
    simp
  · rw [if_neg hdvd]
    have hx1 : dftChar N t ≠ 1 := by
      intro h
      apply hdvd
      unfold dftChar at h
      rw [Complex.exp_eq_one_iff] at h
      obtain ⟨k, hk⟩ := h
      have h5 : 2 * (Real.pi : ℂ) * Complex.I * (t : ℂ)
          = (k : ℂ) * (2 * Real.pi * Complex.I) * N := by
        have h6 := congrArg (fun z => z * (N : ℂ)) hk
        simpa [div_mul_cancel₀, hNne] using h6
      have h7 : (t : ℂ) = (k : ℂ) * N := by
        apply mul_left_cancel₀ Complex.two_pi_I_ne_zero
        calc 2 * (Real.pi : ℂ) * Complex.I * (t : ℂ)
            = (k : ℂ) * (2 * Real.pi * Complex.I) * N := h5
          _ = 2 * Real.pi * Complex.I * ((k : ℂ) * N) := by ring
      have h8 : t = k * (N : ℤ) := by exact_mod_cast h7
      exact ⟨k, h8.trans (mul_comm _ _)⟩
    have hxN : dftChar N t ^ N = 1 := by
      rw [← dftChar_pow]
      exact dftChar_mul_N N hN t
    rw [geom_sum_eq hx1 N, hxN]
    simp

/-- For `i, m < N`, divisibility of `m − i` by `N` forces `i = m`. -/
lemma dvd_sub_iff_eq (N i m : ℕ) (hi : i < N) (hm : m < N) :
    (N : ℤ) ∣ ((m : ℤ) - i) ↔ i = m := by
  constructor
  · rintro ⟨c, hc⟩
    have hc1 : c < 1 := by
      by_contra h
      push_neg at h
      have h2 : (N : ℤ) * 1 ≤ N * c := by
        apply mul_le_mul_of_nonneg_left h
        exact_mod_cast Nat.zero_le N
      rw [← hc, mul_one] at h2
      omega
    have hc2 : -1 < c := by
      by_contra h
      push_neg at h
      have h2 : (N : ℤ) * c ≤ N * (-1) := by
        apply mul_le_mul_of_nonneg_left h
        exact_mod_cast Nat.zero_le N
      rw [← hc] at h2
      have h3 : (N : ℤ) * (-1) = -N := by ring
      rw [h3] at h2
      omega
    have hc0 : c = 0 := by omega
    rw [hc0, mul_zero] at hc
    omega
  · rintro rfl
    simp

lemma emod_toNat_lt (x : ℤ) (N : ℕ) (hN : 0 < N) : (x % (N : ℤ)).toNat < N := by
  have h1 : 0 ≤ x % (N : ℤ) := Int.emod_nonneg x (by exact_mod_cast hN.ne')
  have h2 : x % (N : ℤ) < N := Int.emod_lt_of_pos x (by exact_mod_cast hN)
  omega

/-- Shift/reindex identity for a 1-d character sum (the heart of the
convolution theorem, applied once per axis). -/
lemma sum_shift_char (N : ℕ) (hN : 0 < N) (g : ℕ → ℂ) (k : ℕ) (u : ℕ) :
    ∑ m ∈ Finset.range N, g ((((m : ℤ) - k) % N).toNat) * dftChar N (-(u * m))
      = dftChar N (-(u * k)) * ∑ m ∈ Finset.range N, g m * dftChar N (-(u * m)) := by
  have hNz : (N : ℤ) ≠ 0 := by exact_mod_cast hN.ne'
  have step1 : ∑ m ∈ Finset.range N, g ((((m : ℤ) - k) % N).toNat) * dftChar N (-(u * m))
      = ∑ m' ∈ Finset.range N, g m' * dftChar N (-(u * ((m' : ℤ) + k))) := by
    refine Finset.sum_bij'
      (fun m _ => (((m : ℤ) - k) % N).toNat)
      (fun m' _ => ((m' + k) % N : ℕ))
      (fun m _ => Finset.mem_range.mpr (emod_toNat_lt _ N hN))
      (fun m' _ => Finset.mem_range.mpr (Nat.mod_lt _ hN))
      ?_ ?_ ?_
    · intro m hm
      rw [Finset.mem_range] at hm
      have h1 : 0 ≤ ((m : ℤ) - k) % N := Int.emod_nonneg _ hNz
      have h2 : (((((((m : ℤ) - k) % N).toNat + k) % N : ℕ)) : ℤ) = (m : ℤ) := by
        rw [← Int.ofNat_mod_ofNat]
        push_cast [Int.toNat_of_nonneg h1]
        rw [Int.emod_add_emod, sub_add_cancel,
          Int.emod_eq_of_lt (by positivity) (by exact_mod_cast hm)]
      exact_mod_cast h2
    · intro m' hm'
      rw [Finset.mem_range] at hm'
      dsimp only
      have h1 : (((m' + k) % N : ℕ) : ℤ) = ((m' : ℤ) + k) % N := by
        rw [← Int.ofNat_mod_ofNat]
        push_cast
        ring_nf
      rw [h1]
      have h2 : ((((m' : ℤ) + k) % N) - k) % N = (m' : ℤ) % N := by
        conv_lhs => rw [Int.sub_emod]
        conv_rhs => rw [show (m' : ℤ) = (m' : ℤ) + k - k by ring, Int.sub_emod]
        rw [Int.emod_emod]
      rw [h2, Int.emod_eq_of_lt (by positivity) (by exact_mod_cast hm'), Int.toNat_natCast]
    · intro m hm
      rw [Finset.mem_range] at hm
      have h1 : 0 ≤ ((m : ℤ) - k) % N := Int.emod_nonneg _ hNz
      congr 1
      have harg : -((u : ℤ) * (((((m : ℤ) - k) % N).toNat : ℤ) + k))
          = -((u : ℤ) * m) + (N : ℤ) * ((u : ℤ) * (((m : ℤ) - k) / N)) := by
        rw [Int.toNat_of_nonneg h1, Int.emod_def]
        ring
      rw [harg, dftChar_period N hN]
  rw [step1, Finset.mul_sum]
  refine Finset.sum_congr rfl (fun m' _ => ?_)
  rw [show (-(u * ((m' : ℤ) + k)) : ℤ) = (-((u : ℤ) * m')) + (-((u : ℤ) * k)) by push_cast; ring,
    dftChar_add]
  ring

/-- Swap the outer and inner index pairs of a 4-fold sum. -/
lemma sum4_swap (S C : ℕ) (g : ℕ → ℕ → ℕ → ℕ → ℂ) :
    ∑ m ∈ Finset.range S, ∑ n ∈ Finset.range C,
      ∑ k ∈ Finset.range S, ∑ l ∈ Finset.range C, g m n k l
      = ∑ k ∈ Finset.range S, ∑ l ∈ Finset.range C,
          ∑ m ∈ Finset.range S, ∑ n ∈ Finset.range C, g m n k l := by
  calc ∑ m ∈ Finset.range S, ∑ n ∈ Finset.range C,
        ∑ k ∈ Finset.range S, ∑ l ∈ Finset.range C, g m n k l
      = ∑ m ∈ Finset.range S, ∑ k ∈ Finset.range S,
          ∑ n ∈ Finset.range C, ∑ l ∈ Finset.range C, g m n k l := by
        exact Finset.sum_congr rfl (fun m _ => Finset.sum_comm)
    _ = ∑ k ∈ Finset.range S, ∑ m ∈ Finset.range S,
          ∑ n ∈ Finset.range C, ∑ l ∈ Finset.range C, g m n k l := Finset.sum_comm
    _ = ∑ k ∈ Finset.range S, ∑ m ∈ Finset.range S,
          ∑ l ∈ Finset.range C, ∑ n ∈ Finset.range C, g m n k l := by
        exact Finset.sum_congr rfl (fun k _ => Finset.sum_congr rfl (fun m _ => Finset.sum_comm))
    _ = ∑ k ∈ Finset.range S, ∑ l ∈ Finset.range C,
          ∑ m ∈ Finset.range S, ∑ n ∈ Finset.range C, g m n k l := by
        exact Finset.sum_congr rfl (fun k _ => Finset.sum_comm)

/-- Convolution theorem, forward direction: the DFT of a circular
convolution is the pointwise product of the DFTs. -/
lemma fft2_circConv2C (S C : ℕ) (hS : 0 < S) (hC : 0 < C) (a b : ℕ → ℕ → ℂ) (u v : ℕ) :
    fft2 S C (circConv2C S C a b) u v = fft2 S C a u v * fft2 S C b u v := by
  unfold fft2 circConv2C
  have h1 : ∑ m ∈ Finset.range S, ∑ n ∈ Finset.range C,
      (∑ k ∈ Finset.range S, ∑ l ∈ Finset.range C,
        a k l * b ((((m : ℤ) - k) % S).toNat) ((((n : ℤ) - l) % C).toNat))
        * dftChar S (-(u * m)) * dftChar C (-(v * n))
      = ∑ m ∈ Finset.range S, ∑ n ∈ Finset.range C,
          ∑ k ∈ Finset.range S, ∑ l ∈ Finset.range C,
            a k l * b ((((m : ℤ) - k) % S).toNat) ((((n : ℤ) - l) % C).toNat)
              * dftChar S (-(u * m)) * dftChar C (-(v * n)) := by
    refine Finset.sum_congr rfl fun m _ => ?_
    refine Finset.sum_congr rfl fun n _ => ?_
    rw [Finset.sum_mul, Finset.sum_mul]
    refine Finset.sum_congr rfl fun k _ => ?_
    rw [Finset.sum_mul, Finset.sum_mul]
  rw [h1, sum4_swap]
  have h2 : ∀ k, ∀ l,
      (∑ m ∈ Finset.range S, ∑ n ∈ Finset.range C,
        a k l * b ((((m : ℤ) - k) % S).toNat) ((((n : ℤ) - l) % C).toNat)
          * dftChar S (-(u * m)) * dftChar C (-(v * n)))
      = a k l * dftChar S (-(u * k)) * dftChar C (-(v * l)) *
          ∑ m ∈ Finset.range S, ∑ n ∈ Finset.range C,
            b m n * dftChar S (-(u * m)) * dftChar C (-(v * n)) := by
    intro k l
    have hn : ∀ m : ℕ,
        (∑ n ∈ Finset.range C,
          a k l * b ((((m : ℤ) - k) % S).toNat) ((((n : ℤ) - l) % C).toNat)
            * dftChar S (-(u * m)) * dftChar C (-(v * n)))
        = a k l * dftChar S (-(u * m)) *
            (dftChar C (-(v * l)) *
              ∑ n ∈ Finset.range C,
                b ((((m : ℤ) - k) % S).toNat) n * dftChar C (-(v * n))) := by
      intro m
      rw [← sum_shift_char C hC (fun n => b ((((m : ℤ) - k) % S).toNat) n) l v]
      rw [Finset.mul_sum]
      refine Finset.sum_congr rfl fun n _ => ?_
      ring
    rw [Finset.sum_congr rfl (fun m _ => hn m)]
    have hm2 : ∑ m ∈ Finset.range S,
        a k l * dftChar S (-(u * m)) *
          (dftChar C (-(v * l)) *
            ∑ n ∈ Finset.range C, b ((((m : ℤ) - k) % S).toNat) n * dftChar C (-(v * n)))
        = a k l * dftChar C (-(v * l)) *
            ∑ m ∈ Finset.range S,
              (∑ n ∈ Finset.range C, b ((((m : ℤ) - k) % S).toNat) n * dftChar C (-(v * n)))
                * dftChar S (-(u * m)) := by
      rw [Finset.mul_sum]
      refine Finset.sum_congr rfl fun m _ => ?_
      ring
    rw [hm2, sum_shift_char S hS
      (fun m' => ∑ n ∈ Finset.range C, b m' n * dftChar C (-(v * n))) k u]
    have h3 : ∑ m ∈ Finset.range S, ∑ n ∈ Finset.range C,
        b m n * dftChar S (-(u * m)) * dftChar C (-(v * n))
        = ∑ m ∈ Finset.range S,
            (∑ n ∈ Finset.range C, b m n * dftChar C (-(v * n))) * dftChar S (-(u * m)) := by
      refine Finset.sum_congr rfl fun m _ => ?_
      rw [Finset.sum_mul]
      refine Finset.sum_congr rfl fun n _ => ?_
      ring
    rw [h3]
    ring
  rw [Finset.sum_congr rfl (fun k _ => Finset.sum_congr rfl (fun l _ => h2 k l))]
  rw [Finset.sum_mul]
  refine Finset.sum_congr rfl fun k _ => ?_
  rw [Finset.sum_mul]

/-- Fourier inversion for the 2-d DFT at in-range positions. -/
lemma ifft2_fft2 (S C : ℕ) (hS : 0 < S) (hC : 0 < C) (x : ℕ → ℕ → ℂ) (m n : ℕ)
    (hm : m < S) (hn : n < C) :
    ifft2 S C (fft2 S C x) m n = x m n := by
  unfold ifft2 fft2
  have key : ∀ u v : ℕ,
      (∑ i ∈ Finset.range S, ∑ j ∈ Finset.range C,
        x i j * dftChar S (-(u * i)) * dftChar C (-(v * j)))
        * dftChar S (u * m) * dftChar C (v * n)
      = ∑ i ∈ Finset.range S, ∑ j ∈ Finset.range C,
          x i j * dftChar S ((u : ℤ) * ((m : ℤ) - i)) * dftChar C ((v : ℤ) * ((n : ℤ) - j)) := by
    intro u v
    rw [Finset.sum_mul, Finset.sum_mul]
    refine Finset.sum_congr rfl fun i _ => ?_
    rw [Finset.sum_mul, Finset.sum_mul]
    refine Finset.sum_congr rfl fun j _ => ?_
    calc x i j * dftChar S (-(u * i)) * dftChar C (-(v * j))
          * dftChar S (u * m) * dftChar C (v * n)
        = x i j * (dftChar S (-(u * i)) * dftChar S (u * m))
            * (dftChar C (-(v * j)) * dftChar C (v * n)) := by ring
      _ = x i j * dftChar S ((u : ℤ) * ((m : ℤ) - i))
            * dftChar C ((v : ℤ) * ((n : ℤ) - j)) := by
          rw [← dftChar_add, ← dftChar_add,
            show (-(u * i) + u * m : ℤ) = (u : ℤ) * ((m : ℤ) - i) by push_cast; ring,
            show (-(v * j) + v * n : ℤ) = (v : ℤ) * ((n : ℤ) - j) by push_cast; ring]
  rw [Finset.sum_congr rfl (fun u _ => Finset.sum_congr rfl (fun v _ => key u v))]
  rw [sum4_swap]
  have inner : ∀ i j : ℕ,
      (∑ u ∈ Finset.range S, ∑ v ∈ Finset.range C,
        x i j * dftChar S ((u : ℤ) * ((m : ℤ) - i)) * dftChar C ((v : ℤ) * ((n : ℤ) - j)))
      = x i j * (∑ u ∈ Finset.range S, dftChar S ((u : ℤ) * ((m : ℤ) - i)))
          * (∑ v ∈ Finset.range C, dftChar C ((v : ℤ) * ((n : ℤ) - j))) := by
    intro i j
    have h1 : ∀ u : ℕ,
        (∑ v ∈ Finset.range C,
          x i j * dftChar S ((u : ℤ) * ((m : ℤ) - i)) * dftChar C ((v : ℤ) * ((n : ℤ) - j)))
        = x i j * dftChar S ((u : ℤ) * ((m : ℤ) - i))
            * ∑ v ∈ Finset.range C, dftChar C ((v : ℤ) * ((n : ℤ) - j)) := by
      intro u
      rw [← Finset.mul_sum]
    rw [Finset.sum_congr rfl (fun u _ => h1 u), ← Finset.sum_mul, ← Finset.mul_sum]
  rw [Finset.sum_congr rfl (fun i _ => Finset.sum_congr rfl (fun j _ => by
    rw [inner i j, sum_dftChar S hS, sum_dftChar C hC]))]
  have hcol : ∀ i, (∑ j ∈ Finset.range C,
      x i j * (if (S : ℤ) ∣ ((m : ℤ) - i) then (S : ℂ) else 0)
        * (if (C : ℤ) ∣ ((n : ℤ) - j) then (C : ℂ) else 0))
      = x i n * (if (S : ℤ) ∣ ((m : ℤ) - i) then (S : ℂ) else 0) * C := by
    intro i
    rw [Finset.sum_eq_single n]
    · rw [if_pos (show (C : ℤ) ∣ ((n : ℤ) - n) by simp)]
    · intro j hj hjn
      rw [Finset.mem_range] at hj
      rw [if_neg (fun h => hjn ((dvd_sub_iff_eq C j n hj hn).mp h))]
      ring
    · intro hnn
      exact absurd (Finset.mem_range.mpr hn) hnn
  rw [Finset.sum_congr rfl (fun i _ => hcol i)]
  rw [Finset.sum_eq_single m]
  · rw [if_pos (show (S : ℤ) ∣ ((m : ℤ) - m) by simp)]
    have hS0 : (S : ℂ) ≠ 0 := Nat.cast_ne_zero.mpr hS.ne'
    have hC0 : (C : ℂ) ≠ 0 := Nat.cast_ne_zero.mpr hC.ne'
    field_simp
    ring
  · intro i hi him
    rw [Finset.mem_range] at hi
    rw [if_neg (fun h => him ((dvd_sub_iff_eq S i m hi hm).mp h))]
    ring
  · intro hmm
    exact absurd (Finset.mem_range.mpr hm) hmm

lemma circConv2C_ofReal (S C : ℕ) (a b : ℕ → ℕ → ℝ) (m n : ℕ) :
    circConv2C S C (fun i j => ((a i j : ℝ) : ℂ)) (fun i j => ((b i j : ℝ) : ℂ)) m n
      = ((circConv2 S C a b m n : ℝ) : ℂ) := by
  unfold circConv2 circConv2C
  push_cast
  rfl

lemma kernelPad_ofReal (kernel : ℕ → ℕ → ℝ) (k0 k1 : ℕ) :
    kernelPad kernel k0 k1
      = fun i j => (((if i < k0 ∧ j < k1 then kernel i j else 0 : ℝ)) : ℂ) := by
  funext i j
  unfold kernelPad
  split <;> simp

lemma rollIdx_lt (shift : ℤ) (n i : ℕ) (hn : 0 < n) : rollIdx shift n i < n :=
  emod_toNat_lt _ n hn

/-- For an even kernel size, reading the rolled output at `i` reads the
unrolled output at `(i + k/2) mod n`. -/
lemma rollIdx_even (k n i : ℕ) (hk : k % 2 = 0) :
    rollIdx (Int.fdiv (-(k : ℤ)) 2) n i = (i + k / 2) % n := by
  obtain ⟨t, rfl⟩ := Nat.dvd_of_mod_eq_zero hk
  unfold rollIdx
  have h1 : Int.fdiv (-((2 * t : ℕ) : ℤ)) 2 = -(t : ℤ) := by
    rw [show (-((2 * t : ℕ) : ℤ)) = 2 * (-(t : ℤ)) by push_cast; ring]
    exact Int.mul_fdiv_cancel_left _ (by norm_num)
  have h2 : (2 * t) / 2 = t := by omega
  rw [h1, h2, show ((i : ℤ) - -(t : ℤ)) = ((i + t : ℕ) : ℤ) by push_cast; ring,
    Int.ofNat_mod_ofNat, Int.toNat_natCast]

/-- C8. On a dense stack with scan/cycle sizes cropped to even
`S = S' − S' % 2`, `C = C' − C' % 2` (odd sizes are cropped, even sizes kept)
and an even-sized kernel, `fourier_filter` (i) equals, at every output
position `(p, o, i, j)`, the circular 2-d convolution of the channel-0 slice
with the zero-padded kernel, read at `((i + k0/2) mod S, (j + k1/2) mod C)` —
i.e. the convolution circularly shifted by `(−⌊k0/2⌋, −⌊k1/2⌋)` — and
(ii) reads only channel 0: stacks agreeing on channel 0 give identical
output. -/
theorem fourier_filter_conv_shift
    (dense dense2 : ℕ → ℕ → ℕ → ℕ → ℕ → ℝ) (S' C' : ℕ) (kernel : ℕ → ℕ → ℝ) (k0 k1 : ℕ)
    (hS : 0 < S' - S' % 2) (hC : 0 < C' - C' % 2)
    (hk0 : k0 % 2 = 0) (hk1 : k1 % 2 = 0)
    (hch : ∀ p o a b, dense2 0 p o a b = dense 0 p o a b) :
    (∀ p o i j,
      fourier_filter dense S' C' kernel k0 k1 p o i j
        = circConv2 (S' - S' % 2) (C' - C' % 2) (fun a b => dense 0 p o a b)
            (fun a b => if a < k0 ∧ b < k1 then kernel a b else 0)
            ((i + k0 / 2) % (S' - S' % 2)) ((j + k1 / 2) % (C' - C' % 2))) ∧
    (∀ p o i j,
      fourier_filter dense2 S' C' kernel k0 k1 p o i j
        = fourier_filter dense S' C' kernel k0 k1 p o i j) := by
  constructor
  · intro p o i j
    unfold fourier_filter
    have hfun : (fun u v =>
        fft2 (S' - S' % 2) (C' - C' % 2) (fun a b => ((dense 0 p o a b : ℝ) : ℂ)) u v *
        fft2 (S' - S' % 2) (C' - C' % 2) (kernelPad kernel k0 k1) u v)
        = fft2 (S' - S' % 2) (C' - C' % 2)
            (circConv2C (S' - S' % 2) (C' - C' % 2)
              (fun a b => ((dense 0 p o a b : ℝ) : ℂ)) (kernelPad kernel k0 k1)) := by
      funext u v
      rw [fft2_circConv2C _ _ hS hC]
    rw [hfun, ifft2_fft2 _ _ hS hC _ _ _ (rollIdx_lt _ _ _ hS) (rollIdx_lt _ _ _ hC),
      rollIdx_even k0 _ i hk0, rollIdx_even k1 _ j hk1, kernelPad_ofReal,
      circConv2C_ofReal]
    exact Complex.ofReal_re _
  · intro p o i j
    unfold fourier_filter
    simp only [hch]

/-- Witness for C8 at a concrete all-zero stack, window 2 × 2 and kernel
size 2 × 2. -/
theorem fourier_filter_conv_shift_witness :
    ((0 : ℕ) < 2 - 2 % 2 ∧ (2 : ℕ) % 2 = 0) ∧
    ((∀ p o i j,
      fourier_filter (fun _ _ _ _ _ => (0 : ℝ)) 2 2 (fun _ _ => (0 : ℝ)) 2 2 p o i j
        = circConv2 (2 - 2 % 2) (2 - 2 % 2) (fun a b => (fun _ _ _ _ _ => (0 : ℝ)) 0 p o a b)
            (fun a b => if a < 2 ∧ b < 2 then (fun _ _ => (0 : ℝ)) a b else 0)
            ((i + 2 / 2) % (2 - 2 % 2)) ((j + 2 / 2) % (2 - 2 % 2))) ∧
    (∀ p o i j,
      fourier_filter (fun _ _ _ _ _ => (0 : ℝ)) 2 2 (fun _ _ => (0 : ℝ)) 2 2 p o i j
        = fourier_filter (fun _ _ _ _ _ => (0 : ℝ)) 2 2 (fun _ _ => (0 : ℝ)) 2 2 p o i j)) :=
  ⟨⟨by decide, by decide⟩,
    fourier_filter_conv_shift (fun _ _ _ _ _ => (0 : ℝ)) (fun _ _ _ _ _ => (0 : ℝ)) 2 2
      (fun _ _ => (0 : ℝ)) 2 2 (by decide) (by decide) (by decide) (by decide)
      (fun _ _ _ _ => rfl)⟩

/-! ### `assemble_push` (hybridselection.py lines 1510-1605)

The sparse layout (`jit_data`) is a CSC-like structure indexed by tof bin:
column `t` holds the entries `tof_indptr[t] ≤ idx < tof_indptr[t+1]`, with row
(push) indices `push_index[idx]` and intensities `intensity_values_t[idx]`;
`mz_values[t]` is the measured m/z of tof bin `t`.  The dense output is a
5-d float array; we embed it as a total function
`channel → tof-slice → observation → relative-scan → relative-cycle → ℚ`
(scan/cycle indices live in `ℤ` because the numba code subtracts the window
start without a bounds check).  All reads use `getD` with default `0`. -/

/-- The parts of `jit_data` that `assemble_push` reads. -/
structure SparseData where
  push_index : List ℕ
  tof_indptr : List ℕ
  intensity_values_t : List ℚ
  mz_values : List ℚ
  scan_max_index : ℕ
  zeroth_frame : ℕ
  cycle_len : ℕ

/-- The dense 5-d output array as a total function. -/
def Dense : Type := ℕ → ℕ → ℕ → ℤ → ℤ → ℚ

/-- Write one cell of the dense array. -/
def setCell (d : Dense) (c j rp : ℕ) (rs rc : ℤ) (v : ℚ) : Dense :=
  fun c' j' rp' rs' rc' =>
    if c' = c ∧ j' = j ∧ rp' = rp ∧ rs' = rs ∧ rc' = rc then v else d c' j' rp' rs' rc'

/-- `python range(s, t, st)` for a positive step. -/
def pyRange (s t st : ℕ) : List ℕ :=
  if st = 0 then [] else List.range' s ((t - s + st - 1) / st) st

/-- `np.unique`: ascending sorted distinct values. -/
def npUnique (l : List ℕ) : List ℕ :=
  (sortBy (fun a b : ℕ => a ≤ b) l).dedup

/-- Enclosing-scope variables of the `assemble_push` loops. -/
structure PushCtx where
  sp : SparseData
  pq : List ℕ
  rel : List ℕ
  msta : ℤ
  pcs : ℤ

/-- `scan_index - mobility_start` of a push. -/
def relScanOf (ctx : PushCtx) (p : ℕ) : ℤ :=
  ((p % ctx.sp.scan_max_index : ℕ) : ℤ) - ctx.msta

/-- `(frame_index - zeroth_frame) // cycle.shape[1] - precursor_cycle_start`
of a push (python floor division). -/
def relCycleOf (ctx : PushCtx) (p : ℕ) : ℤ :=
  (((p / ctx.sp.scan_max_index : ℕ) : ℤ) - ctx.sp.zeroth_frame).fdiv ctx.sp.cycle_len - ctx.pcs

/-- One accumulation event: target cell plus the new intensity and ppm
error. -/
structure PushEvent where
  j : ℕ
  rp : ℕ
  rs : ℤ
  rc : ℤ
  w : ℚ
  e : ℚ
  deriving Repr, DecidableEq

/-- The body of the `if push_query[i] == push_index[idx]` block: read the
accumulated cell, add the intensity, update the intensity-weighted error. -/
def applyEvent (d : Dense) (ev : PushEvent) : Dense :=
  let acc_int := d 0 ev.j ev.rp ev.rs ev.rc
  let acc_err := d 1 ev.j ev.rp ev.rs ev.rc
  let weighted := (acc_err * acc_int + ev.e * ev.w) / (acc_int + ev.w)
  setCell (setCell d 0 ev.j ev.rp ev.rs ev.rc (acc_int + ev.w)) 1 ev.j ev.rp ev.rs ev.rc weighted

/-- The event generated when query position `i` matches sparse entry `idx`
of the tof column with measured m/z `measured`, in slice `j` with library
m/z `library`. -/
def eventOf (ctx : PushCtx) (j : ℕ) (library measured : ℚ) (i idx : ℕ) : PushEvent :=
  let p := ctx.sp.push_index.getD idx 0
  { j := j
    rp := ctx.rel.getD i 0
    rs := relScanOf ctx p
    rc := relCycleOf ctx p
    w := ctx.sp.intensity_values_t.getD idx 0
    e := (measured - library) / library * 1000000 }

/-- The two-pointer merge of the query against one tof column
(`while (idx < stop) and (i < len(push_query))`). -/
def mergeLoop (ctx : PushCtx) (j : ℕ) (library measured : ℚ) (stop : ℕ)
    (d : Dense) (i idx : ℕ) : Dense :=
  if h : idx < stop ∧ i < ctx.pq.length then
    if ctx.pq.getD i 0 < ctx.sp.push_index.getD idx 0 then
      mergeLoop ctx j library measured stop d (i + 1) idx
    else
      mergeLoop ctx j library measured stop
        (if ctx.pq.getD i 0 = ctx.sp.push_index.getD idx 0 then
          applyEvent d (eventOf ctx j library measured i idx) else d)
        i (idx + 1)
  else d
termination_by (stop - idx) + (ctx.pq.length - i)
decreasing_by
  · omega
  · omega

/-- Loop over the tof bins of one slice (`for tof_index in range(...)`). -/
def tofLoop (ctx : PushCtx) (j : ℕ) (library : ℚ) : List ℕ → Dense → Dense
  | [], d => d
  | tof :: rest, d =>
      tofLoop ctx j library rest
        (mergeLoop ctx j library (ctx.sp.mz_values.getD tof 0)
          (ctx.sp.tof_indptr.getD (tof + 1) 0) d 0 (ctx.sp.tof_indptr.getD tof 0))

/-- Loop over the enumerated tof slices (`for j, (...) in enumerate(...)`). -/
def sliceLoop (ctx : PushCtx) (mz : List ℚ) : List (ℕ × (ℕ × ℕ × ℕ)) → Dense → Dense
  | [], d => d
  | (j, (ts, te, st)) :: rest, d =>
      sliceLoop ctx mz rest (tofLoop ctx j (mz.getD j 0) (pyRange ts te st) d)

/-- `assemble_push`.  The `len(precursor_index) == 0` early return gives an
empty array, modelled as the all-zero function. -/
def assemble_push (tof_limits : List (ℕ × ℕ × ℕ)) (mz : List ℚ)
    (push_query precursor_index : List ℕ) (frame_limits scan_limits : ℕ × ℕ)
    (ppm_background : ℚ) (sp : SparseData) : Dense :=
  if precursor_index = [] then fun _ _ _ _ _ => 0
  else
    let uniq := npUnique precursor_index
    let rel := precursor_index.map (fun p => if p ∈ uniq then uniq.indexOf p else 0)
    let ctx : PushCtx :=
      { sp := sp
        pq := push_query
        rel := rel
        msta := (scan_limits.1 : ℤ)
        pcs := ((frame_limits.1 : ℤ) - sp.zeroth_frame).fdiv sp.cycle_len }
    let init : Dense := fun c _ _ _ _ => if c = 1 then ppm_background else 0
    sliceLoop ctx mz tof_limits.enum init

/-- Spec side: the matching sparse hits at dense position `(j, rp, rs, rc)`:
every entry of every tof column of slice `j` whose push index is selected by
the query and whose derived coordinates are `(rp, rs, rc)`; the hit carries
its intensity and its ppm error `(measured − library)/library · 10⁶`. -/
def matchingHits (ctx : PushCtx) (tof_limits : List (ℕ × ℕ × ℕ)) (mz : List ℚ)
    (j rp : ℕ) (rs rc : ℤ) : List (ℚ × ℚ) :=
  let tl := tof_limits.getD j (0, 0, 0)
  (pyRange tl.1 tl.2.1 tl.2.2).flatMap (fun tof =>
    (List.range' (ctx.sp.tof_indptr.getD tof 0)
        (ctx.sp.tof_indptr.getD (tof + 1) 0 - ctx.sp.tof_indptr.getD tof 0)).filterMap
      (fun idx =>
        let p := ctx.sp.push_index.getD idx 0
        if p ∈ ctx.pq ∧ ctx.rel.getD (ctx.pq.indexOf p) 0 = rp ∧
            relScanOf ctx p = rs ∧ relCycleOf ctx p = rc then
          some (ctx.sp.intensity_values_t.getD idx 0,
            (ctx.sp.mz_values.getD tof 0 - mz.getD j 0) / mz.getD j 0 * 1000000)
        else none))

/-- The (query position, sparse entry) pairs matched by the two-pointer
merge, in the order the loop visits them. -/
def mergePairs (pq col : List ℕ) (stop : ℕ) (i idx : ℕ) : List (ℕ × ℕ) :=
  if h : idx < stop ∧ i < pq.length then
    if pq.getD i 0 < col.getD idx 0 then mergePairs pq col stop (i + 1) idx
    else if pq.getD i 0 = col.getD idx 0 then (i, idx) :: mergePairs pq col stop i (idx + 1)
    else mergePairs pq col stop i (idx + 1)
  else []
termination_by (stop - idx) + (pq.length - i)
decreasing_by
  · omega
  · omega
  · omega

lemma mergeLoop_eq_foldl (ctx : PushCtx) (j : ℕ) (library measured : ℚ) (stop : ℕ)
    (d : Dense) (i idx : ℕ) :
    mergeLoop ctx j library measured stop d i idx
      = List.foldl applyEvent d
          ((mergePairs ctx.pq ctx.sp.push_index stop i idx).map
            (fun pr => eventOf ctx j library measured pr.1 pr.2)) := by
  unfold mergeLoop mergePairs
  split
  · rename_i h
    split
    · exact mergeLoop_eq_foldl ctx j library measured stop d (i + 1) idx
    · rename_i hlt
      by_cases heq : ctx.pq.getD i 0 = ctx.sp.push_index.getD idx 0
      · rw [if_pos heq, if_pos heq, List.map_cons, List.foldl_cons]
        exact mergeLoop_eq_foldl ctx j library measured stop
          (applyEvent d (eventOf ctx j library measured i idx)) i (idx + 1)
      · rw [if_neg heq, if_neg heq]
        exact mergeLoop_eq_foldl ctx j library measured stop d i (idx + 1)
  · rfl
termination_by (stop - idx) + (ctx.pq.length - i)
decreasing_by
  · omega
  · omega
  · omega

/-- In a strictly ascending list, `indexOf` of the `i`-th element is `i`. -/
lemma indexOf_getD_of_sorted (pq : List ℕ)
    (hpq : ∀ i2, i2 < pq.length → ∀ i1, i1 < i2 → pq.getD i1 0 < pq.getD i2 0)
    (i : ℕ) (hi : i < pq.length) : pq.indexOf (pq.getD i 0) = i := by
  have hmem : pq.getD i 0 ∈ pq := by
    rw [List.getD_eq_getElem _ _ hi]
    exact List.getElem_mem hi
  have hk : pq.indexOf (pq.getD i 0) < pq.length := List.indexOf_lt_length.mpr hmem
  have hkv : pq.getD (pq.indexOf (pq.getD i 0)) 0 = pq.getD i 0 := by
    rw [List.getD_eq_getElem _ _ hk]
    exact List.getElem_indexOf hk
  rcases lt_trichotomy (pq.indexOf (pq.getD i 0)) i with h | h | h
  · have := hpq i hi _ h
    omega
  · exact h
  · have := hpq _ hk i h
    omega

/-- Canonical description of the merge: under sortedness of the query and of
the column, the merge finds exactly the column entries whose push index
occurs in the query, each paired with the position of that push in the
query. -/
lemma mergePairs_canon (pq col : List ℕ) (stop : ℕ)
    (hpq : ∀ i2, i2 < pq.length → ∀ i1, i1 < i2 → pq.getD i1 0 < pq.getD i2 0) :
    ∀ i idx,
    (∀ b, b < stop → ∀ a, idx ≤ a → a < b → col.getD a 0 < col.getD b 0) →
    (∀ i1, i1 < i → ∀ x, idx ≤ x → x < stop → pq.getD i1 0 < col.getD x 0) →
    mergePairs pq col stop i idx
      = (List.range' idx (stop - idx)).filterMap
          (fun x => if col.getD x 0 ∈ pq then some (pq.indexOf (col.getD x 0), x) else none) := by
  intro i idx
  intro hcol hpre
  by_cases hstop : idx < stop
  · by_cases hilen : i < pq.length
    · have hrange : stop - idx = (stop - (idx + 1)) + 1 := by omega
      rcases lt_trichotomy (pq.getD i 0) (col.getD idx 0) with hlt | heq | hgt
      · -- advance the query pointer
        rw [show mergePairs pq col stop i idx = mergePairs pq col stop (i + 1) idx by
          conv_lhs => rw [mergePairs]
          rw [dif_pos ⟨hstop, hilen⟩, if_pos hlt]]
        exact mergePairs_canon pq col stop hpq (i + 1) idx hcol
          (fun i1 h1 x hx1 hx2 => by
            rcases Nat.lt_or_ge i1 i with h2 | h2
            · exact hpre i1 h2 x hx1 hx2
            · have hi1 : i1 = i := by omega
              subst hi1
              rcases Nat.eq_or_lt_of_le hx1 with rfl | h3
              · exact hlt
              · exact hlt.trans (hcol x hx2 idx (le_refl _) h3))
      · -- match: record the pair, advance the column pointer
        rw [show mergePairs pq col stop i idx = (i, idx) :: mergePairs pq col stop i (idx + 1) by
          conv_lhs => rw [mergePairs]
          rw [dif_pos ⟨hstop, hilen⟩, if_neg (by omega), if_pos heq]]
        rw [hrange, List.range'_succ, List.filterMap_cons]
        have hmem : col.getD idx 0 ∈ pq := by
          rw [← heq, List.getD_eq_getElem _ _ hilen]
          exact List.getElem_mem hilen
        rw [if_pos hmem]
        have hidx : pq.indexOf (col.getD idx 0) = i := by
          rw [← heq]
          exact indexOf_getD_of_sorted pq hpq i hilen
        rw [hidx]
        congr 1
        exact mergePairs_canon pq col stop hpq i (idx + 1)
          (fun b hb a ha1 ha2 => hcol b hb a (by omega) ha2)
          (fun i1 h1 x hx1 hx2 => hpre i1 h1 x (by omega) hx2)
      · -- no match: advance the column pointer
        rw [show mergePairs pq col stop i idx = mergePairs pq col stop i (idx + 1) by
          conv_lhs => rw [mergePairs]
          rw [dif_pos ⟨hstop, hilen⟩, if_neg (by omega), if_neg (by omega)]]
        rw [hrange, List.range'_succ, List.filterMap_cons]
        have hnmem : col.getD idx 0 ∉ pq := by
          intro hmem
          obtain ⟨i1, hi1, hv⟩ := List.mem_iff_getElem.mp hmem
          have hv' : pq.getD i1 0 = col.getD idx 0 := by
            rw [List.getD_eq_getElem _ _ hi1]
            exact hv
          rcases lt_trichotomy i1 i with h2 | h2 | h2
          · have := hpre i1 h2 idx (le_refl _) hstop
            omega
          · subst h2
            omega
          · have := hpq i1 hi1 i h2
            omega
        rw [if_neg hnmem]
        exact mergePairs_canon pq col stop hpq i (idx + 1)
          (fun b hb a ha1 ha2 => hcol b hb a (by omega) ha2)
          (fun i1 h1 x hx1 hx2 => hpre i1 h1 x (by omega) hx2)
    · -- the query pointer is exhausted: nothing further matches
      rw [show mergePairs pq col stop i idx = [] by
        conv_lhs => rw [mergePairs]
        rw [dif_neg (by omega)]]
      symm
      rw [List.filterMap_eq_nil]
      intro x hx
      rw [List.mem_range'_1] at hx
      have hnmem : col.getD x 0 ∉ pq := by
        intro hmem
        obtain ⟨i1, hi1, hv⟩ := List.mem_iff_getElem.mp hmem
        have hv' : pq.getD i1 0 = col.getD x 0 := by
          rw [List.getD_eq_getElem _ _ hi1]
          exact hv
        have := hpre i1 (by omega) x hx.1 (by omega)
        omega
      rw [if_neg hnmem]
  · rw [show mergePairs pq col stop i idx = [] by
      conv_lhs => rw [mergePairs]
      rw [dif_neg (by omega)]]
    rw [show stop - idx = 0 by omega]
    rfl
termination_by i idx => (stop - idx) + (pq.length - i)
decreasing_by
  · omega
  · omega
  · omega

/-- All events generated while processing the given tof bins of slice `j`. -/
def tofEvents (ctx : PushCtx) (j : ℕ) (library : ℚ) (tofs : List ℕ) : List PushEvent :=
  tofs.flatMap (fun tof =>
    (mergePairs ctx.pq ctx.sp.push_index (ctx.sp.tof_indptr.getD (tof + 1) 0)
        0 (ctx.sp.tof_indptr.getD tof 0)).map
      (fun pr => eventOf ctx j library (ctx.sp.mz_values.getD tof 0) pr.1 pr.2))

/-- All events generated by the whole slice loop. -/
def sliceEvents (ctx : PushCtx) (mz : List ℚ) (slices : List (ℕ × (ℕ × ℕ × ℕ))) :
    List PushEvent :=
  slices.flatMap (fun s => tofEvents ctx s.1 (mz.getD s.1 0) (pyRange s.2.1 s.2.2.1 s.2.2.2))

lemma tofLoop_eq_foldl (ctx : PushCtx) (j : ℕ) (library : ℚ) :
    ∀ (tofs : List ℕ) (d : Dense),
    tofLoop ctx j library tofs d = List.foldl applyEvent d (tofEvents ctx j library tofs) := by
  intro tofs
  induction tofs with
  | nil => intro d; rfl
  | cons tof rest ih =>
      intro d
      rw [show tofLoop ctx j library (tof :: rest) d
          = tofLoop ctx j library rest
              (mergeLoop ctx j library (ctx.sp.mz_values.getD tof 0)
                (ctx.sp.tof_indptr.getD (tof + 1) 0) d 0 (ctx.sp.tof_indptr.getD tof 0)) from rfl]
      rw [ih, mergeLoop_eq_foldl]
      unfold tofEvents
      rw [List.flatMap_cons, List.foldl_append]

lemma sliceLoop_eq_foldl (ctx : PushCtx) (mz : List ℚ) :
    ∀ (slices : List (ℕ × (ℕ × ℕ × ℕ))) (d : Dense),
    sliceLoop ctx mz slices d = List.foldl applyEvent d (sliceEvents ctx mz slices) := by
  intro slices
  induction slices with
  | nil => intro d; rfl
  | cons s rest ih =>
      intro d
      obtain ⟨j, ts, te, st⟩ := s
      rw [show sliceLoop ctx mz ((j, ts, te, st) :: rest) d
          = sliceLoop ctx mz rest (tofLoop ctx j (mz.getD j 0) (pyRange ts te st) d) from rfl]
      rw [ih, tofLoop_eq_foldl]
      unfold sliceEvents
      rw [List.flatMap_cons, List.foldl_append]

/-- Per-cell accumulator step: add the intensity, take the intensity-weighted
mean of the errors. -/
def cellStep (s : ℚ × ℚ) (ev : PushEvent) : ℚ × ℚ :=
  (s.1 + ev.w, (s.2 * s.1 + ev.e * ev.w) / (s.1 + ev.w))

/-- Whether an event targets the given cell. -/
def atCell (j rp : ℕ) (rs rc : ℤ) (ev : PushEvent) : Bool :=
  decide (ev.j = j ∧ ev.rp = rp ∧ ev.rs = rs ∧ ev.rc = rc)

/-- Events at other cells do not change this cell; events at this cell act
like `cellStep` on the pair of channel values. -/
lemma foldl_applyEvent_cell (j rp : ℕ) (rs rc : ℤ) :
    ∀ (L : List PushEvent) (d : Dense),
    ((List.foldl applyEvent d L) 0 j rp rs rc, (List.foldl applyEvent d L) 1 j rp rs rc)
      = List.foldl cellStep (d 0 j rp rs rc, d 1 j rp rs rc) (L.filter (atCell j rp rs rc)) := by
  intro L
  induction L with
  | nil => intro d; rfl
  | cons ev rest ih =>
      intro d
      rw [List.foldl_cons, List.filter_cons]
      by_cases hcell : ev.j = j ∧ ev.rp = rp ∧ ev.rs = rs ∧ ev.rc = rc
      · rw [if_pos (by simpa [atCell] using hcell)]
        rw [List.foldl_cons, ih]
        obtain ⟨h1, h2, h3, h4⟩ := hcell
        subst h1; subst h2; subst h3; subst h4
        have hch0 : (applyEvent d ev) 0 ev.j ev.rp ev.rs ev.rc
            = d 0 ev.j ev.rp ev.rs ev.rc + ev.w := by
          unfold applyEvent setCell
          norm_num
        have hch1 : (applyEvent d ev) 1 ev.j ev.rp ev.rs ev.rc
            = (d 1 ev.j ev.rp ev.rs ev.rc * d 0 ev.j ev.rp ev.rs ev.rc + ev.e * ev.w)
                / (d 0 ev.j ev.rp ev.rs ev.rc + ev.w) := by
          unfold applyEvent setCell
          norm_num
        rw [hch0, hch1]
        rfl
      · rw [if_neg (by simpa [atCell] using hcell)]
        rw [ih]
        have hmiss : ¬ (j = ev.j ∧ rp = ev.rp ∧ rs = ev.rs ∧ rc = ev.rc) := by
          intro h
          exact hcell ⟨h.1.symm, h.2.1.symm, h.2.2.1.symm, h.2.2.2.symm⟩
        have hch0 : (applyEvent d ev) 0 j rp rs rc = d 0 j rp rs rc := by
          unfold applyEvent setCell
          rw [if_neg (by intro h; exact hmiss h.2), if_neg (by intro h; exact hmiss h.2)]
        have hch1 : (applyEvent d ev) 1 j rp rs rc = d 1 j rp rs rc := by
          unfold applyEvent setCell
          rw [if_neg (by intro h; exact hmiss h.2), if_neg (by intro h; exact hmiss h.2)]
        rw [hch0, hch1]

/-- The weighted-mean invariant: starting from `(W, EW/W)` (or the background
when `W = 0`), folding events with positive intensities yields the total
intensity and the total intensity-weighted mean error. -/
lemma cellStep_fold (bg : ℚ) :
    ∀ (L : List PushEvent), (∀ ev ∈ L, 0 < ev.w) → ∀ (W EW : ℚ), 0 ≤ W → (W = 0 → EW = 0) →
    List.foldl cellStep (W, if W = 0 then bg else EW / W) L
      = (W + (L.map (·.w)).sum,
         if W + (L.map (·.w)).sum = 0 then bg
         else (EW + (L.map (fun ev => ev.e * ev.w)).sum) / (W + (L.map (·.w)).sum)) := by
  intro L
  induction L with
  | nil =>
      intro _ W EW hW hWE
      simp only [List.map_nil, List.sum_nil, add_zero, List.foldl_nil]
  | cons ev rest ih =>
      intro hpos W EW hW hWE
      have hw : 0 < ev.w := hpos ev (List.mem_cons_self _ _)
      rw [List.foldl_cons]
      have hW' : 0 < W + ev.w := by linarith
      have hstep : cellStep (W, if W = 0 then bg else EW / W) ev
          = (W + ev.w, if W + ev.w = 0 then bg else (EW + ev.e * ev.w) / (W + ev.w)) := by
        unfold cellStep
        rw [if_neg hW'.ne']
        by_cases h : W = 0
        · rw [if_pos h]
          subst h
          rw [hWE rfl]
          norm_num
        · rw [if_neg h]
          congr 1
          field_simp
      rw [hstep, ih (fun x hx => hpos x (List.mem_cons_of_mem _ hx)) (W + ev.w)
        (EW + ev.e * ev.w) hW'.le (fun h => absurd h hW'.ne')]
      simp only [List.map_cons, List.sum_cons, ← add_assoc]

/-- The loop context `assemble_push` builds (non-empty case). -/
def pushCtxOf (push_query precursor_index : List ℕ) (frame_limits scan_limits : ℕ × ℕ)
    (sp : SparseData) : PushCtx :=
  { sp := sp
    pq := push_query
    rel := precursor_index.map
      (fun p => if p ∈ npUnique precursor_index then (npUnique precursor_index).indexOf p else 0)
    msta := (scan_limits.1 : ℤ)
    pcs := ((frame_limits.1 : ℤ) - sp.zeroth_frame).fdiv sp.cycle_len }

lemma tofEvents_j (ctx : PushCtx) (j : ℕ) (library : ℚ) (tofs : List ℕ) :
    ∀ ev ∈ tofEvents ctx j library tofs, ev.j = j := by
  intro ev hev
  rw [tofEvents, List.mem_flatMap] at hev
  obtain ⟨tof, _, hm⟩ := hev
  rw [List.mem_map] at hm
  obtain ⟨pr, _, rfl⟩ := hm
  rfl

lemma enumFrom_fst_ge {α : Type} :
    ∀ (l : List α) (n : ℕ), ∀ p ∈ l.enumFrom n, n ≤ p.1 := by
  intro l
  induction l with
  | nil => intro n p hp; cases hp
  | cons a rest ih =>
      intro n p hp
      rw [show (a :: rest).enumFrom n = (n, a) :: rest.enumFrom (n + 1) from rfl,
        List.mem_cons] at hp
      rcases hp with rfl | hp
      · exact le_refl n
      · exact (Nat.le_succ n).trans (ih (n + 1) p hp)

lemma sliceEvents_cons (ctx : PushCtx) (mz : List ℚ) (j0 ts te st : ℕ)
    (slices : List (ℕ × ℕ × ℕ × ℕ)) :
    sliceEvents ctx mz ((j0, ts, te, st) :: slices)
      = tofEvents ctx j0 (mz.getD j0 0) (pyRange ts te st) ++ sliceEvents ctx mz slices := by
  unfold sliceEvents
  rw [List.flatMap_cons]

lemma sliceEvents_j (ctx : PushCtx) (mz : List ℚ) (slices : List (ℕ × ℕ × ℕ × ℕ)) :
    ∀ ev ∈ sliceEvents ctx mz slices, ∃ s ∈ slices, ev.j = s.1 := by
  intro ev hev
  rw [sliceEvents, List.mem_flatMap] at hev
  obtain ⟨s, hs, hm⟩ := hev
  exact ⟨s, hs, tofEvents_j _ _ _ _ ev hm⟩

/-- Only the slice numbered `j` can contribute events at dense row `j`. -/
lemma sliceEvents_filter_enumFrom (ctx : PushCtx) (mz : List ℚ) (j rp : ℕ) (rs rc : ℤ) :
    ∀ (l : List (ℕ × ℕ × ℕ)) (n : ℕ), n ≤ j →
    (sliceEvents ctx mz (l.enumFrom n)).filter (atCell j rp rs rc)
      = (tofEvents ctx j (mz.getD j 0)
          (pyRange (l.getD (j - n) (0, 0, 0)).1 (l.getD (j - n) (0, 0, 0)).2.1
            (l.getD (j - n) (0, 0, 0)).2.2)).filter (atCell j rp rs rc) := by
  intro l
  induction l with
  | nil =>
      intro n _
      rfl
  | cons a rest ih =>
      intro n hn
      obtain ⟨ts, te, st⟩ := a
      rw [show ((ts, te, st) :: rest).enumFrom n = (n, ts, te, st) :: rest.enumFrom (n + 1)
        from rfl]
      rw [sliceEvents_cons, List.filter_append]
      by_cases hnj : n = j
      · subst hnj
        have h2 : (sliceEvents ctx mz (rest.enumFrom (n + 1))).filter (atCell n rp rs rc)
            = [] := by
          rw [List.filter_eq_nil]
          intro ev hev
          obtain ⟨s, hs, hj⟩ := sliceEvents_j ctx mz (rest.enumFrom (n + 1)) ev hev
          have hge : n + 1 ≤ s.1 := enumFrom_fst_ge rest (n + 1) s hs
          simp only [atCell, decide_eq_true_eq]
          intro hc
          omega
        rw [h2, List.append_nil, Nat.sub_self, List.getD_cons_zero]
      · have hn1 : n + 1 ≤ j := by omega
        have h1 : (tofEvents ctx n (mz.getD n 0) (pyRange ts te st)).filter
            (atCell j rp rs rc) = [] := by
          rw [List.filter_eq_nil]
          intro ev hev
          have hj : ev.j = n := tofEvents_j _ _ _ _ ev hev
          simp only [atCell, decide_eq_true_eq]
          intro hc
          omega
        rw [h1, List.nil_append, ih (n + 1) hn1]
        rw [show j - n = (j - (n + 1)) + 1 from by omega, List.getD_cons_succ]

lemma filterMap_pipeline {α β γ δ : Type} (f : α → Option β) (g : β → γ) (p : γ → Bool)
    (q : γ → δ) :
    ∀ l : List α,
    (((l.filterMap f).map g).filter p).map q
      = l.filterMap (fun x =>
          match f x with
          | none => none
          | some b => if p (g b) then some (q (g b)) else none) := by
  intro l
  induction l with
  | nil => rfl
  | cons a rest ih =>
      cases hfa : f a with
      | none => simp [List.filterMap_cons, hfa, ih]
      | some b =>
          cases hpb : p (g b) with
          | false => simp [List.filterMap_cons, hfa, List.filter_cons, hpb, ih]
          | true => simp [List.filterMap_cons, hfa, List.filter_cons, hpb, ih]

lemma filterMap_congr' {α β : Type} (f g : α → Option β) :
    ∀ l : List α, (∀ x ∈ l, f x = g x) → l.filterMap f = l.filterMap g := by
  intro l
  induction l with
  | nil => intro _; rfl
  | cons a rest ih =>
      intro hfg
      rw [List.filterMap_cons, List.filterMap_cons, hfg a (List.mem_cons_self a rest),
        ih (fun x hx => hfg x (List.mem_cons_of_mem a hx))]

/-- One tof column: the cell-relevant merge events, projected to
(intensity, ppm error), are exactly the matching sparse entries of that
column. -/
lemma mergeEvents_cell (ctx : PushCtx) (j rp : ℕ) (rs rc : ℤ) (library measured : ℚ)
    (start stop : ℕ)
    (hpq : ∀ i2, i2 < ctx.pq.length → ∀ i1, i1 < i2 → ctx.pq.getD i1 0 < ctx.pq.getD i2 0)
    (hcol : ∀ b, b < stop → ∀ a, start ≤ a → a < b →
      ctx.sp.push_index.getD a 0 < ctx.sp.push_index.getD b 0) :
    (((mergePairs ctx.pq ctx.sp.push_index stop 0 start).map
        (fun pr => eventOf ctx j library measured pr.1 pr.2)).filter
        (atCell j rp rs rc)).map (fun ev => (ev.w, ev.e))
      = (List.range' start (stop - start)).filterMap
          (fun idx =>
            if ctx.sp.push_index.getD idx 0 ∈ ctx.pq ∧
                ctx.rel.getD (ctx.pq.indexOf (ctx.sp.push_index.getD idx 0)) 0 = rp ∧
                relScanOf ctx (ctx.sp.push_index.getD idx 0) = rs ∧
                relCycleOf ctx (ctx.sp.push_index.getD idx 0) = rc then
              some (ctx.sp.intensity_values_t.getD idx 0,
                (measured - library) / library * 1000000)
            else none) := by
  rw [mergePairs_canon ctx.pq ctx.sp.push_index stop hpq 0 start hcol
    (fun i1 h1 => absurd h1 (Nat.not_lt_zero i1))]
  rw [filterMap_pipeline]
  apply filterMap_congr'
  intro x _
  by_cases hmem : ctx.sp.push_index.getD x 0 ∈ ctx.pq
  · rw [if_pos hmem]
    show (if atCell j rp rs rc (eventOf ctx j library measured
          (ctx.pq.indexOf (ctx.sp.push_index.getD x 0)) x) then
        some ((eventOf ctx j library measured
            (ctx.pq.indexOf (ctx.sp.push_index.getD x 0)) x).w,
          (eventOf ctx j library measured
            (ctx.pq.indexOf (ctx.sp.push_index.getD x 0)) x).e)
      else none) = _
    by_cases hcell : ctx.rel.getD (ctx.pq.indexOf (ctx.sp.push_index.getD x 0)) 0 = rp ∧
        relScanOf ctx (ctx.sp.push_index.getD x 0) = rs ∧
        relCycleOf ctx (ctx.sp.push_index.getD x 0) = rc
    · have hat : atCell j rp rs rc (eventOf ctx j library measured
          (ctx.pq.indexOf (ctx.sp.push_index.getD x 0)) x) = true := by
        simp only [atCell, eventOf, decide_eq_true_eq]
        exact ⟨trivial, hcell.1, hcell.2.1, hcell.2.2⟩
      rw [if_pos hat, if_pos ⟨hmem, hcell⟩]
      rfl
    · have hat : ¬ (atCell j rp rs rc (eventOf ctx j library measured
          (ctx.pq.indexOf (ctx.sp.push_index.getD x 0)) x) = true) := by
        simp only [atCell, eventOf, decide_eq_true_eq]
        intro h
        exact hcell ⟨h.2.1, h.2.2.1, h.2.2.2⟩
      rw [if_neg hat, if_neg (fun h => hcell h.2)]
  · rw [if_neg hmem, if_neg (fun h => hmem h.1)]

/-- All tof columns of one slice. -/
lemma tofEvents_cell (ctx : PushCtx) (j rp : ℕ) (rs rc : ℤ) (library : ℚ)
    (hpq : ∀ i2, i2 < ctx.pq.length → ∀ i1, i1 < i2 → ctx.pq.getD i1 0 < ctx.pq.getD i2 0)
    (hcolAll : ∀ t, ∀ b, b < ctx.sp.tof_indptr.getD (t + 1) 0 → ∀ a,
      ctx.sp.tof_indptr.getD t 0 ≤ a → a < b →
      ctx.sp.push_index.getD a 0 < ctx.sp.push_index.getD b 0) :
    ∀ tofs : List ℕ,
    ((tofEvents ctx j library tofs).filter (atCell j rp rs rc)).map (fun ev => (ev.w, ev.e))
      = tofs.flatMap (fun tof =>
          (List.range' (ctx.sp.tof_indptr.getD tof 0)
              (ctx.sp.tof_indptr.getD (tof + 1) 0 - ctx.sp.tof_indptr.getD tof 0)).filterMap
            (fun idx =>
              if ctx.sp.push_index.getD idx 0 ∈ ctx.pq ∧
                  ctx.rel.getD (ctx.pq.indexOf (ctx.sp.push_index.getD idx 0)) 0 = rp ∧
                  relScanOf ctx (ctx.sp.push_index.getD idx 0) = rs ∧
                  relCycleOf ctx (ctx.sp.push_index.getD idx 0) = rc then
                some (ctx.sp.intensity_values_t.getD idx 0,
                  (ctx.sp.mz_values.getD tof 0 - library) / library * 1000000)
              else none)) := by
  intro tofs
  induction tofs with
  | nil => rfl
  | cons tof rest ih =>
      rw [show tofEvents ctx j library (tof :: rest)
          = (mergePairs ctx.pq ctx.sp.push_index (ctx.sp.tof_indptr.getD (tof + 1) 0)
              0 (ctx.sp.tof_indptr.getD tof 0)).map
            (fun pr => eventOf ctx j library (ctx.sp.mz_values.getD tof 0) pr.1 pr.2)
            ++ tofEvents ctx j library rest from by
        unfold tofEvents
        rw [List.flatMap_cons]]
      rw [List.filter_append, List.map_append, List.flatMap_cons]
      rw [mergeEvents_cell ctx j rp rs rc library (ctx.sp.mz_values.getD tof 0)
        (ctx.sp.tof_indptr.getD tof 0) (ctx.sp.tof_indptr.getD (tof + 1) 0) hpq
        (hcolAll tof), ih]

/-- Core invariant of the slice loop: at any cell, channel 0 is the sum of
the matching intensities and channel 1 the intensity-weighted mean error
(background when the intensity sum is zero). -/
lemma push_cells_aux (ctx : PushCtx) (tof_limits : List (ℕ × ℕ × ℕ)) (mz : List ℚ)
    (bg : ℚ) (j rp : ℕ) (rs rc : ℤ)
    (hpq : ∀ i2, i2 < ctx.pq.length → ∀ i1, i1 < i2 → ctx.pq.getD i1 0 < ctx.pq.getD i2 0)
    (hcolAll : ∀ t, ∀ b, b < ctx.sp.tof_indptr.getD (t + 1) 0 → ∀ a,
      ctx.sp.tof_indptr.getD t 0 ≤ a → a < b →
      ctx.sp.push_index.getD a 0 < ctx.sp.push_index.getD b 0)
    (hbound : ∀ x ∈ ctx.sp.tof_indptr, x ≤ ctx.sp.intensity_values_t.length)
    (hpos : ∀ w ∈ ctx.sp.intensity_values_t, 0 < w) :
    sliceLoop ctx mz tof_limits.enum (fun c _ _ _ _ => if c = 1 then bg else 0) 0 j rp rs rc
      = ((matchingHits ctx tof_limits mz j rp rs rc).map (fun h => h.1)).sum ∧
    sliceLoop ctx mz tof_limits.enum (fun c _ _ _ _ => if c = 1 then bg else 0) 1 j rp rs rc
      = (if ((matchingHits ctx tof_limits mz j rp rs rc).map (fun h => h.1)).sum = 0 then bg
         else ((matchingHits ctx tof_limits mz j rp rs rc).map (fun h => h.2 * h.1)).sum
              / ((matchingHits ctx tof_limits mz j rp rs rc).map (fun h => h.1)).sum) := by
  have hhits : (((sliceEvents ctx mz tof_limits.enum).filter (atCell j rp rs rc)).map
      (fun ev => (ev.w, ev.e))) = matchingHits ctx tof_limits mz j rp rs rc := by
    rw [show tof_limits.enum = tof_limits.enumFrom 0 from rfl,
      sliceEvents_filter_enumFrom ctx mz j rp rs rc tof_limits 0 (Nat.zero_le j),
      Nat.sub_zero]
    rw [tofEvents_cell ctx j rp rs rc (mz.getD j 0) hpq hcolAll]
    rfl
  have hstople : ∀ t, ctx.sp.tof_indptr.getD t 0 ≤ ctx.sp.intensity_values_t.length := by
    intro t
    by_cases ht : t < ctx.sp.tof_indptr.length
    · exact hbound _ (by rw [List.getD_eq_getElem _ _ ht]; exact List.getElem_mem ht)
    · rw [List.getD_eq_default _ _ (by omega)]
      exact Nat.zero_le _
  have hposHits : ∀ h2 ∈ matchingHits ctx tof_limits mz j rp rs rc, 0 < h2.1 := by
    intro h2 hh
    simp only [matchingHits] at hh
    rw [List.mem_flatMap] at hh
    obtain ⟨tof, _, hm⟩ := hh
    rw [List.mem_filterMap] at hm
    obtain ⟨idx, hidx, hsome⟩ := hm
    rw [List.mem_range'_1] at hidx
    split at hsome
    · cases hsome
      have hlt : idx < ctx.sp.intensity_values_t.length := by
        have h1 := hstople (tof + 1)
        omega
      show 0 < ctx.sp.intensity_values_t.getD idx 0
      rw [List.getD_eq_getElem _ _ hlt]
      exact hpos _ (List.getElem_mem hlt)
    · cases hsome
  have hposEv : ∀ ev ∈ (sliceEvents ctx mz tof_limits.enum).filter (atCell j rp rs rc),
      0 < ev.w := by
    intro ev hev
    have hevm : (ev.w, ev.e) ∈ matchingHits ctx tof_limits mz j rp rs rc := by
      rw [← hhits]
      exact List.mem_map_of_mem _ hev
    exact hposHits _ hevm
  rw [sliceLoop_eq_foldl]
  have hpair := foldl_applyEvent_cell j rp rs rc (sliceEvents ctx mz tof_limits.enum)
    (fun c _ _ _ _ => if c = 1 then bg else 0)
  norm_num at hpair
  rw [show ((0 : ℚ), bg) = ((0 : ℚ), if (0 : ℚ) = 0 then bg else 0 / 0) from by
    norm_num] at hpair
  rw [cellStep_fold bg ((sliceEvents ctx mz tof_limits.enum).filter (atCell j rp rs rc))
    hposEv 0 0 le_rfl (fun _ => rfl)] at hpair
  have hw : (((sliceEvents ctx mz tof_limits.enum).filter (atCell j rp rs rc)).map
      (fun ev => ev.w))
      = (matchingHits ctx tof_limits mz j rp rs rc).map (fun h => h.1) := by
    rw [← hhits, List.map_map]
    rfl
  have he : (((sliceEvents ctx mz tof_limits.enum).filter (atCell j rp rs rc)).map
      (fun ev => ev.e * ev.w))
      = (matchingHits ctx tof_limits mz j rp rs rc).map (fun h => h.2 * h.1) := by
    rw [← hhits, List.map_map]
    rfl
  rw [hw, he] at hpair
  simp only [zero_add] at hpair
  exact ⟨congrArg Prod.fst hpair, congrArg Prod.snd hpair⟩

/-- **C7.** In every dense window produced by `assemble_push`, at every
(ion, observation, scan, cycle) position, channel 0 holds the sum of the
intensities of the matching sparse hits and channel 1 the intensity-weighted
mean of the per-hit ppm errors `(measured_mz - library_mz)/library_mz*10^6`
when channel 0 is non-zero; channel 1 equals the ppm background value when
channel 0 is zero. -/
theorem assemble_push_cells
    (tof_limits : List (ℕ × ℕ × ℕ)) (mz : List ℚ) (push_query precursor_index : List ℕ)
    (frame_limits scan_limits : ℕ × ℕ) (ppm_background : ℚ) (sp : SparseData)
    (j rp : ℕ) (rs rc : ℤ)
    (hne : precursor_index ≠ [])
    (hpq : ∀ i2, i2 < push_query.length → ∀ i1, i1 < i2 →
      push_query.getD i1 0 < push_query.getD i2 0)
    (hcol : ∀ t, t < sp.tof_indptr.length - 1 → ∀ b, b < sp.tof_indptr.getD (t + 1) 0 →
      ∀ a, a < b → sp.tof_indptr.getD t 0 ≤ a →
      sp.push_index.getD a 0 < sp.push_index.getD b 0)
    (hbound : ∀ x ∈ sp.tof_indptr, x ≤ sp.intensity_values_t.length)
    (hpos : ∀ w ∈ sp.intensity_values_t, 0 < w) :
    assemble_push tof_limits mz push_query precursor_index frame_limits scan_limits
        ppm_background sp 0 j rp rs rc
      = ((matchingHits (pushCtxOf push_query precursor_index frame_limits scan_limits sp)
            tof_limits mz j rp rs rc).map (fun h => h.1)).sum ∧
    assemble_push tof_limits mz push_query precursor_index frame_limits scan_limits
        ppm_background sp 1 j rp rs rc
      = (if ((matchingHits (pushCtxOf push_query precursor_index frame_limits scan_limits
              sp) tof_limits mz j rp rs rc).map (fun h => h.1)).sum = 0 then ppm_background
         else ((matchingHits (pushCtxOf push_query precursor_index frame_limits scan_limits
                sp) tof_limits mz j rp rs rc).map (fun h => h.2 * h.1)).sum
              / ((matchingHits (pushCtxOf push_query precursor_index frame_limits
                  scan_limits sp) tof_limits mz j rp rs rc).map (fun h => h.1)).sum) := by
  have hassemble : assemble_push tof_limits mz push_query precursor_index frame_limits
      scan_limits ppm_background sp
      = sliceLoop (pushCtxOf push_query precursor_index frame_limits scan_limits sp) mz
        tof_limits.enum (fun c _ _ _ _ => if c = 1 then ppm_background else 0) := by
    unfold assemble_push pushCtxOf
    rw [if_neg hne]
  rw [hassemble]
  have hcolAll : ∀ t, ∀ b, b < sp.tof_indptr.getD (t + 1) 0 → ∀ a,
      sp.tof_indptr.getD t 0 ≤ a → a < b →
      sp.push_index.getD a 0 < sp.push_index.getD b 0 := by
    intro t b hb a ha hab
    by_cases ht : t < sp.tof_indptr.length - 1
    · exact hcol t ht b hb a hab ha
    · exfalso
      rw [List.getD_eq_default _ _ (by omega)] at hb
      omega
  exact push_cells_aux (pushCtxOf push_query precursor_index frame_limits scan_limits sp)
    tof_limits mz ppm_background j rp rs rc hpq hcolAll hbound hpos

/-- Witness: on a one-precursor query with no tof slices the dense window has
intensity 0 and background error at every cell, matching the empty hit list. -/
theorem assemble_push_cells_witness :
    assemble_push [] [] [] [0] (0, 0) (0, 0) 15 ⟨[], [], [], [], 1, 0, 1⟩ 0 0 0 0 0
      = ((matchingHits (pushCtxOf [] [0] (0, 0) (0, 0) ⟨[], [], [], [], 1, 0, 1⟩)
            [] [] 0 0 0 0).map (fun h => h.1)).sum ∧
    assemble_push [] [] [] [0] (0, 0) (0, 0) 15 ⟨[], [], [], [], 1, 0, 1⟩ 1 0 0 0 0
      = (if ((matchingHits (pushCtxOf [] [0] (0, 0) (0, 0) ⟨[], [], [], [], 1, 0, 1⟩)
              [] [] 0 0 0 0).map (fun h => h.1)).sum = 0 then 15
         else ((matchingHits (pushCtxOf [] [0] (0, 0) (0, 0) ⟨[], [], [], [], 1, 0, 1⟩)
                [] [] 0 0 0 0).map (fun h => h.2 * h.1)).sum
              / ((matchingHits (pushCtxOf [] [0] (0, 0) (0, 0) ⟨[], [], [], [], 1, 0, 1⟩)
                  [] [] 0 0 0 0).map (fun h => h.1)).sum) :=
  assemble_push_cells [] [] [] [0] (0, 0) (0, 0) 15 ⟨[], [], [], [], 1, 0, 1⟩ 0 0 0 0
    (by decide) (by decide) (by decide) (by decide) (by decide)

/-! ### Hybrid score-group processing (claims C1, C6, C10) -/

/-- Modelled from the spec: the sliced fragment data of one score group as
parallel per-fragment arrays (owner precursor, m/z, intensity, cardinality);
the FragmentContainer module is not part of `src/`. -/
structure FragData where
  precursor_idx : List ℕ
  mz : List ℚ
  intensity : List ℚ
  cardinality : List ℕ
  deriving Repr, DecidableEq

/-- Modelled from the spec: `FragmentContainer.slice` gathers the rows of the
per-precursor `[start, stop)` ranges, in range order. -/
def sliceFrags (f : FragData) (ranges : List (ℕ × ℕ)) : FragData :=
  let idxs := ranges.flatMap (fun r => List.range' r.1 (r.2 - r.1))
  { precursor_idx := idxs.map (fun i => f.precursor_idx.getD i 0)
    mz := idxs.map (fun i => f.mz.getD i 0)
    intensity := idxs.map (fun i => f.intensity.getD i 0)
    cardinality := idxs.map (fun i => f.cardinality.getD i 0) }

/-- Modelled from the spec: `FragmentContainer.sort_by_mz` applies one common
ascending-m/z permutation to all fragment arrays. -/
def sortFragsByMz (f : FragData) : FragData :=
  let order := argsort f.mz
  { precursor_idx := permuteBy order f.precursor_idx 0
    mz := permuteBy order f.mz 0
    intensity := permuteBy order f.intensity 0
    cardinality := permuteBy order f.cardinality 0 }

/-- Modelled from the spec: IonGroupMapper (§4.4).  Drop ions with
cardinality above `max_cardinality`; scale each ion's intensity by
`precursor_abundance[owner] / cardinality`; merge ions of equal m/z by
summing the weighted intensities; keep the `top_k` by weighted intensity;
return the kept ions sorted by m/z as parallel (m/z, intensity) arrays. -/
def get_ion_group_mapping (owner : List ℕ) (mz intensity : List ℚ)
    (cardinality : List ℕ) (precursor_abundance : List ℚ)
    (top_k : ℕ) (max_cardinality : ℕ) : List ℚ × List ℚ :=
  let rows := (owner.zip ((mz.zip intensity).zip cardinality)).filter
    (fun r => r.2.2 ≤ max_cardinality)
  let weighted := rows.map
    (fun r => (r.2.1.1, r.2.1.2 * precursor_abundance.getD r.1 0 / (r.2.2 : ℚ)))
  let mzs := (sortBy (fun a b : ℚ => a ≤ b) (weighted.map (fun r => r.1))).dedup
  let merged := mzs.map
    (fun m => (m, ((weighted.filter (fun r => r.1 = m)).map (fun r => r.2)).sum))
  let top := (sortBy (fun a b : ℚ × ℚ => b.2 ≤ a.2) merged).take top_k
  let sorted := sortBy (fun a b : ℚ × ℚ => a.1 ≤ b.1) top
  (sorted.map (fun r => r.1), sorted.map (fun r => r.2))

/-- `HybridElutionGroup.trim_isotopes`: keep the isotope columns whose mean
intensity across the group exceeds 0.1. -/
def trim_isotopes (M : List (List ℚ)) : List (List ℚ) :=
  let keep := (List.range (M.getD 0 []).length).filter
    (fun j => (M.map (fun row => row.getD j 0)).sum / (M.length : ℚ) > 1/10)
  M.map (fun row => keep.map (fun j => row.getD j 0))

/-- `HybridElutionGroup.assemble_isotope_mz`: precursor m/z plus
`k · 1.0033548350700006 / charge` for each kept isotope `k`. -/
def assemble_isotope_mz (mzl : List ℚ) (M : List (List ℚ)) (charge : ℚ) :
    List (List ℚ) :=
  mzl.map (fun m => (List.range (M.getD 0 []).length).map
    (fun k => m + (k : ℚ) * (10033548350700006 / 10000000000000000) / charge))

/-- `HybridElutionGroup.build_candidates` (hybridselection.py 322-344): an
empty typed list is created; if the dense fragment window is smaller than
the kernel in either dimension it is returned immediately; otherwise both
windows are smoothed (`fourier_a0`, results unused for the emitted list) and
the only append is guarded by the constant test `1 > 2`. -/
def build_candidates (shape2 shape3 k0 k1 : ℕ) : List ℕ :=
  if shape2 < k0 ∨ shape3 < k1 then []
  else if 1 > 2 then [1] else []

/-- The fields `HybridElutionGroup.process` assigns on its executed path,
plus the inputs of both ion-group-mapping calls that the claims inspect.
`candidates := none` records that the attribute is never assigned. -/
structure ProcessState where
  precursor_abundance : List ℚ
  sorted : HybridEG
  fragment_call_abundance : List ℚ
  fragment_mz : List ℚ
  fragment_intensity : List ℚ
  precursor_call_abundance : Option (List ℚ)
  precursor_mz : List ℚ
  precursor_intensity : List ℚ
  quadrupole_mz : Option (Option (List (List ℚ)))
  candidates : Option (List ℕ)
  deriving Repr, DecidableEq

/-- `HybridElutionGroup.process` (hybridselection.py 378-575) up to the
unconditional `return` that precedes all peak-picking code.  The steps that
only feed the dense-window assembly through `jit_data` (frame/scan/tof
limits, cycle masks, push enumeration, `assemble_push`) assign no field
recorded here; the dense assembly itself is `assemble_push` (C7).  The
out-of-bounds write of `calculate_score_group_limits` (C2) is recorded as
the inner `Option`; numba raises no exception for it and execution
continues to the `return`.  `candidates` is never assigned on the executed
path. -/
def processHybrid (eg : HybridEG) (charge : ℚ) (fragment_container : FragData)
    (top_k_fragments top_k_precursors : ℕ) : ProcessState :=
  let abundance := (List.range eg.precursor_decoy.length).map
    (fun i => if eg.precursor_channel.getD i 0 = 0 then (10 : ℚ) else 1)
  let eg1 := sortByMz eg
  let iso := trim_isotopes eg1.precursor_isotope_intensity
  let isotope_mz_matrix := assemble_isotope_mz eg1.precursor_mz iso charge
  let frags := sortFragsByMz (sliceFrags fragment_container eg1.precursor_frag_start_stop_idx)
  let fm := get_ion_group_mapping frags.precursor_idx frags.mz frags.intensity
    frags.cardinality abundance top_k_fragments 10
  if fm.1 = [] then
    { precursor_abundance := abundance
      sorted := eg1
      fragment_call_abundance := abundance
      fragment_mz := fm.1
      fragment_intensity := fm.2
      precursor_call_abundance := none
      precursor_mz := []
      precursor_intensity := []
      quadrupole_mz := none
      candidates := none }
  else
    let isotope_mz := isotope_mz_matrix.flatMap (fun r => r)
    let isotope_intensity := iso.flatMap (fun r => r)
    let isotope_precursor := (List.range isotope_mz_matrix.length).flatMap
      (fun i => List.replicate (isotope_mz_matrix.getD 0 []).length i)
    let order := argsort isotope_mz
    let pm := get_ion_group_mapping (permuteBy order isotope_precursor 0)
      (permuteBy order isotope_mz 0) (permuteBy order isotope_intensity 0)
      (List.replicate isotope_mz.length 1) abundance top_k_precursors 10
    if pm.1 = [] then
      { precursor_abundance := abundance
        sorted := eg1
        fragment_call_abundance := abundance
        fragment_mz := fm.1
        fragment_intensity := fm.2
        precursor_call_abundance := some abundance
        precursor_mz := pm.1
        precursor_intensity := pm.2
        quadrupole_mz := none
        candidates := none }
    else
      { precursor_abundance := abundance
        sorted := eg1
        fragment_call_abundance := abundance
        fragment_mz := fm.1
        fragment_intensity := fm.2
        precursor_call_abundance := some abundance
        precursor_mz := pm.1
        precursor_intensity := pm.2
        quadrupole_mz := some (calculate_score_group_limits pm.1 pm.2)
        candidates := none }

/-- `HybridCandidateSelection.__call__` (hybridselection.py 895-941): builds
the elution-group container, runs `process` on every group, and returns the
container itself (`return elution_group_container`); the commented-out
`assemble_candidates` below the return is not executed. -/
def hybridSelectionCall (egs : List (HybridEG × ℚ)) (fragment_container : FragData)
    (top_k_fragments top_k_precursors : ℕ) : List ProcessState :=
  egs.map (fun p => processHybrid p.1 p.2 fragment_container top_k_fragments
    top_k_precursors)

lemma processHybrid_candidates (eg : HybridEG) (charge : ℚ) (fc : FragData)
    (tkf tkp : ℕ) : (processHybrid eg charge fc tkf tkp).candidates = none := by
  simp only [processHybrid]
  split
  · rfl
  · split <;> rfl

lemma hybridSelectionCall_candidates :
    ∀ (egs : List (HybridEG × ℚ)) (fc : FragData) (tkf tkp : ℕ),
    (hybridSelectionCall egs fc tkf tkp).map (fun st => st.candidates)
      = List.replicate egs.length none := by
  intro egs fc tkf tkp
  induction egs with
  | nil => rfl
  | cons p rest ih =>
      show (processHybrid p.1 p.2 fc tkf tkp).candidates ::
          (hybridSelectionCall rest fc tkf tkp).map (fun st => st.candidates)
        = none :: List.replicate rest.length none
      rw [processHybrid_candidates, ih]

/-- **C1.** Refuted: `process` reaches an unconditional `return` before any
peak-picking code, so no Candidate record is ever emitted (`candidates` is
never assigned), even for score groups whose dense windows pass the size
checks; `build_candidates` itself can only return the empty list (its only
append is under `if 1 > 2`); and `__call__` returns the elution-group
container, in which every group carries no candidates, instead of a candidate
table. -/
theorem process_returns_before_peak_picking :
    (∀ (eg : HybridEG) (charge : ℚ) (fc : FragData) (tkf tkp : ℕ),
      (processHybrid eg charge fc tkf tkp).candidates = none) ∧
    (∀ s2 s3 k0 k1 : ℕ, build_candidates s2 s3 k0 k1 = []) ∧
    (∀ (egs : List (HybridEG × ℚ)) (fc : FragData) (tkf tkp : ℕ),
      (hybridSelectionCall egs fc tkf tkp).map (fun st => st.candidates)
        = List.replicate egs.length none) ∧
    ((20 : ℕ) ≤ 21 ∧ (20 : ℕ) ≤ 21) ∧ build_candidates 21 21 20 20 = [] := by
  refine ⟨processHybrid_candidates, ?_, hybridSelectionCall_candidates, by decide, by decide⟩
  intro s2 s3 k0 k1
  unfold build_candidates
  split
  · rfl
  · split
    · omega
    · rfl

/-- **C6.** If the ion grouping leaves the fragment list empty, `process`
returns before the second mapping call and before the fallible
`calculate_score_group_limits`; if it leaves the precursor list empty,
`process` returns before `calculate_score_group_limits`; and
`build_candidates` returns the empty candidate list when the dense fragment
window is smaller than the kernel in either dimension.  In all three cases
the group terminates normally with zero candidates and no fallible operation
is reached. -/
theorem process_degenerate_inputs :
    (∀ (eg : HybridEG) (charge : ℚ) (fc : FragData) (tkf tkp : ℕ),
      (processHybrid eg charge fc tkf tkp).fragment_mz = [] →
      (processHybrid eg charge fc tkf tkp).precursor_call_abundance = none ∧
      (processHybrid eg charge fc tkf tkp).quadrupole_mz = none ∧
      (processHybrid eg charge fc tkf tkp).candidates = none) ∧
    (∀ (eg : HybridEG) (charge : ℚ) (fc : FragData) (tkf tkp : ℕ),
      (processHybrid eg charge fc tkf tkp).precursor_mz = [] →
      (processHybrid eg charge fc tkf tkp).quadrupole_mz = none ∧
      (processHybrid eg charge fc tkf tkp).candidates = none) ∧
    (∀ s2 s3 k0 k1 : ℕ, s2 < k0 ∨ s3 < k1 → build_candidates s2 s3 k0 k1 = []) := by
  refine ⟨?_, ?_, ?_⟩
  · intro eg charge fc tkf tkp
    simp only [processHybrid]
    split
    · intro _
      exact ⟨rfl, rfl, rfl⟩
    · rename_i hne
      split
      · intro h
        exact absurd h hne
      · intro h
        exact absurd h hne
  · intro eg charge fc tkf tkp
    simp only [processHybrid]
    split
    · intro _
      exact ⟨rfl, rfl⟩
    · split
      · intro _
        exact ⟨rfl, rfl⟩
      · rename_i hne
        intro h
        exact absurd h hne
  · intro s2 s3 k0 k1 h
    unfold build_candidates
    rw [if_pos h]

/-- A score group with no precursors and an empty fragment container. -/
def egDeg : HybridEG := ⟨[], [], [], [], [], []⟩

def fragDeg : FragData := ⟨[], [], [], []⟩

/-- Witness: on the empty score group the fragment list after grouping is
empty and the group yields no candidates with no fallible step reached; a
0-sized window is smaller than the default 20-kernel and yields no
candidates. -/
theorem process_degenerate_inputs_witness :
    (processHybrid egDeg 2 fragDeg 12 3).fragment_mz = [] ∧
    (processHybrid egDeg 2 fragDeg 12 3).quadrupole_mz = none ∧
    (processHybrid egDeg 2 fragDeg 12 3).candidates = none ∧
    ((0 : ℕ) < 20 ∨ (0 : ℕ) < 20) ∧ build_candidates 0 0 20 20 = [] :=
  ⟨by decide,
   (process_degenerate_inputs.1 egDeg 2 fragDeg 12 3 (by decide)).2.1,
   (process_degenerate_inputs.1 egDeg 2 fragDeg 12 3 (by decide)).2.2,
   by decide,
   process_degenerate_inputs.2.2 0 0 20 20 (by decide)⟩

lemma map_eq_range_map {α β : Type} (l : List α) (d : α) (f : α → β) :
    (List.range l.length).map (fun i => f (l.getD i d)) = l.map f := by
  refine List.ext_getElem (by simp) ?_
  intro i h1 h2
  simp only [List.getElem_map, List.getElem_range]
  rw [List.getD_eq_getElem l d (by simpa using h1)]

/-- **C10.** The abundance vector `process` feeds to both ion-group-mapping
calls is fixed by the code — 10 for channel-0 precursors, 1 otherwise — and
is computed from the channel array before `sort_by_mz` runs (which leaves
the channel array untouched). -/
theorem abundance_fixed_before_sort (eg : HybridEG) (charge : ℚ) (fc : FragData)
    (tkf tkp : ℕ)
    (hlen : eg.precursor_channel.length = eg.precursor_decoy.length) :
    (processHybrid eg charge fc tkf tkp).precursor_abundance
      = eg.precursor_channel.map (fun c => if c = 0 then (10 : ℚ) else 1) ∧
    (processHybrid eg charge fc tkf tkp).fragment_call_abundance
      = (processHybrid eg charge fc tkf tkp).precursor_abundance ∧
    (∀ pa, (processHybrid eg charge fc tkf tkp).precursor_call_abundance = some pa →
      pa = (processHybrid eg charge fc tkf tkp).precursor_abundance) ∧
    (sortByMz eg).precursor_channel = eg.precursor_channel := by
  have habd : (processHybrid eg charge fc tkf tkp).precursor_abundance
      = (List.range eg.precursor_decoy.length).map
        (fun i => if eg.precursor_channel.getD i 0 = 0 then (10 : ℚ) else 1) := by
    simp only [processHybrid]
    split
    · rfl
    · split <;> rfl
  refine ⟨?_, ?_, ?_, rfl⟩
  · rw [habd, ← hlen]
    exact map_eq_range_map eg.precursor_channel 0 (fun c => if c = 0 then (10 : ℚ) else 1)
  · simp only [processHybrid]
    split
    · rfl
    · split <;> rfl
  · intro pa hpa
    have h2 : (processHybrid eg charge fc tkf tkp).precursor_call_abundance = none ∨
        (processHybrid eg charge fc tkf tkp).precursor_call_abundance
          = some ((processHybrid eg charge fc tkf tkp).precursor_abundance) := by
      simp only [processHybrid]
      split
      · exact Or.inl rfl
      · split
        · exact Or.inr rfl
        · exact Or.inr rfl
    rcases h2 with h2 | h2
    · rw [h2] at hpa
      cases hpa
    · rw [h2] at hpa
      injection hpa with h3
      exact h3.symm

/-- A two-precursor group, channels 0 and 1, m/z out of order. -/
def egAb : HybridEG := ⟨[500, 400], [0, 0], [7, 8], [0, 1], [(0, 0), (0, 0)], [[], []]⟩

def fragAb : FragData := ⟨[], [], [], []⟩

/-- Witness: channels `[0, 1]` give abundance `[10, 1]`, and sorting by m/z
leaves the channel array unchanged. -/
theorem abundance_fixed_before_sort_witness :
    (processHybrid egAb 2 fragAb 12 3).precursor_abundance = [10, 1] ∧
    (sortByMz egAb).precursor_channel = egAb.precursor_channel :=
  ⟨((abundance_fixed_before_sort egAb 2 fragAb 12 3 (by decide)).1).trans (by decide),
   (abundance_fixed_before_sort egAb 2 fragAb 12 3 (by decide)).2.2.2⟩

end AlphaDia
